import Mathlib

/-!
# Monkey bytecode: instruction encoding, decoding and disassembly

A shallow embedding of `code/code.go` (package `code`) and `vm/frame.go`
(package `vm`) of the Monkey interpreter, followed by theorems about them.

Modelling conventions.

* A Go pointer that the sources dereference is an `Option`; dereferencing `nil`
  is the panic `nilDereference`.
* A Go `byte` is a natural number; every conversion `byte(x)` / `uint16(x)`
  is written as an explicit reduction modulo `256` / `65536`.
* A Go `int` (operands, operand widths, offsets) is an `Int`.
* A run-time panic of the Go code (index or slice bound out of range,
  negative `make` length) is `Except.error` carrying a `Panic`.
* The `for` loop of `Instructions.String` has no variant that decreases on
  every path, so it is modelled with a fuel argument: `none` means the loop
  was still running when the fuel ran out.
-/

namespace Code

/-- Run-time panics the Go code can raise. -/
inductive Panic where
  | indexOutOfRange
  | sliceBoundsOutOfRange
  | makeLenOutOfRange
  | nilDereference
  deriving DecidableEq, Repr

deriving instance DecidableEq for Except

/-- Go `string`. -/
abbrev Text := String

/-- Go `type Opcode byte`. -/
abbrev Opcode := Nat

/-- Go `type Instructions []byte`. -/
abbrev Instructions := List Nat

/-- Go `type Definition struct { Name string; OperandWidths []int }`. -/
structure Definition where
  Name : Text
  OperandWidths : List Int
  deriving DecidableEq, Repr

/-! ## Opcode constants (`iota` enumeration) -/

abbrev OpConstant : Opcode := 0
abbrev OpAdd : Opcode := 1
abbrev OpPop : Opcode := 2
abbrev OpSub : Opcode := 3
abbrev OpMul : Opcode := 4
abbrev OpDiv : Opcode := 5
abbrev OpTrue : Opcode := 6
abbrev OpFalse : Opcode := 7
abbrev OpEqual : Opcode := 8
abbrev OpNotEqual : Opcode := 9
abbrev OpGreaterThan : Opcode := 10
abbrev OpMinus : Opcode := 11
abbrev OpBang : Opcode := 12
abbrev OpJumpNotTruthy : Opcode := 13
abbrev OpJump : Opcode := 14
abbrev OpNull : Opcode := 15
abbrev OpGetGlobal : Opcode := 16
abbrev OpSetGlobal : Opcode := 17
abbrev OpArray : Opcode := 18
abbrev OpHash : Opcode := 19
abbrev OpIndex : Opcode := 20
abbrev OpCall : Opcode := 21
abbrev OpReturnValue : Opcode := 22
abbrev OpReturn : Opcode := 23
abbrev OpGetLocal : Opcode := 24
abbrev OpSetLocal : Opcode := 25
abbrev OpGetBuiltin : Opcode := 26
abbrev OpClosure : Opcode := 27
abbrev OpGetFree : Opcode := 28

/-- The entries of the map literal `definitions`, in source order. -/
def definitionsTable : List (Opcode × Definition) :=
  [ (OpConstant, ⟨"OpConstant", [2]⟩),
    (OpAdd, ⟨"OpAdd", []⟩),
    (OpPop, ⟨"OpPop", []⟩),
    (OpSub, ⟨"OpSub", []⟩),
    (OpMul, ⟨"OpMul", []⟩),
    (OpDiv, ⟨"OpDiv", []⟩),
    (OpTrue, ⟨"OpTrue", []⟩),
    (OpFalse, ⟨"OpFalse", []⟩),
    (OpEqual, ⟨"OpEqual", []⟩),
    (OpNotEqual, ⟨"OpNotEqual", []⟩),
    (OpGreaterThan, ⟨"OpGreaterThan", []⟩),
    (OpMinus, ⟨"OpMinus", []⟩),
    (OpBang, ⟨"OpBang", []⟩),
    (OpJumpNotTruthy, ⟨"OpJumpNotTruthy", [2]⟩),
    (OpJump, ⟨"OpJump", [2]⟩),
    (OpNull, ⟨"OpNull", []⟩),
    (OpGetGlobal, ⟨"OpGetGlobal", [2]⟩),
    (OpSetGlobal, ⟨"OpSetGlobal", [2]⟩),
    (OpArray, ⟨"OpArray", [2]⟩),
    (OpHash, ⟨"OpHash", [2]⟩),
    (OpIndex, ⟨"OpIndex", []⟩),
    (OpCall, ⟨"OpCall", [1]⟩),
    (OpReturnValue, ⟨"OpReturnValue", []⟩),
    (OpReturn, ⟨"OpReturn", []⟩),
    (OpGetLocal, ⟨"OpGetLocal", [1]⟩),
    (OpSetLocal, ⟨"OpSetLocal", [1]⟩),
    (OpGetBuiltin, ⟨"OpGetBuiltin", [1]⟩),
    (OpClosure, ⟨"OpClosure", [2, 1]⟩),
    (OpGetFree, ⟨"OpGetFree", [1]⟩) ]

/-- The map `definitions`: `definitions[op]` with its `ok` flag as an `Option`. -/
def definitions (op : Opcode) : Option Definition :=
  definitionsTable.lookup op

/-! ## Formatting verbs of `fmt` -/

/-- The verb `%d` applied to an `int`. -/
def fmtD (n : Int) : Text := toString n

/-- Left padding with `'0'` up to `w` characters. -/
def padZeros (w : Nat) (s : Text) : Text :=
  String.mk (List.replicate (w - s.length) '0') ++ s

/-- The verb `%04d` applied to an `int`: the sign, if any, counts towards the width. -/
def fmt04d (n : Int) : Text :=
  if n < 0 then "-" ++ padZeros 3 (toString n.natAbs) else padZeros 4 (toString n.toNat)

/-! ## Conversions and slice primitives -/

/-- Go `byte(o)` for `o : int`. -/
def byte (o : Int) : Nat := (o % 256).toNat

/-- Go `uint16(o)` for `o : int`. -/
def uint16 (o : Int) : Nat := (o % 65536).toNat

/-- The slice expression `ins[offset:]`. -/
def sliceFrom (ins : Instructions) (offset : Int) : Except Panic Instructions :=
  if 0 ≤ offset ∧ offset ≤ ins.length then .ok (ins.drop offset.toNat)
  else .error .sliceBoundsOutOfRange

/-- The index expression `ins[i]`. -/
def index (ins : Instructions) (i : Int) : Except Panic Nat :=
  if 0 ≤ i ∧ i < ins.length then .ok (ins.getD i.toNat 0)
  else .error .indexOutOfRange

/-- The assignment `instruction[offset] = b`. -/
def putByte (instruction : Instructions) (offset : Int) (b : Nat) : Except Panic Instructions :=
  if 0 ≤ offset ∧ offset < instruction.length then .ok (instruction.set offset.toNat b)
  else .error .indexOutOfRange

/-- The call `binary.BigEndian.PutUint16(instruction[offset:], v)`: it writes
`byte(v >> 8)` and `byte(v)` through the slice into `instruction`. -/
def PutUint16 (instruction : Instructions) (offset : Int) (v : Nat) : Except Panic Instructions :=
  if 0 ≤ offset ∧ offset ≤ instruction.length then
    if offset + 2 ≤ instruction.length then
      .ok ((instruction.set offset.toNat (v / 256 % 256)).set (offset.toNat + 1) (v % 256))
    else .error .indexOutOfRange
  else .error .sliceBoundsOutOfRange

/-- Go `ReadUint16`, that is `binary.BigEndian.Uint16(ins)`. -/
def ReadUint16 (ins : Instructions) : Except Panic Nat :=
  match ins with
  | b0 :: b1 :: _ => .ok (b0 * 256 + b1)
  | _ => .error .indexOutOfRange

/-- Go `ReadUint8`, that is `uint8(ins[0])`. -/
def ReadUint8 (ins : Instructions) : Except Panic Nat :=
  match ins with
  | b0 :: _ => .ok b0
  | [] => .error .indexOutOfRange

/-! ## `Lookup`, `Make`, `ReadOperands` -/

/-- Go `Lookup`: the definition of `op`, or the error `opcode %d undefined`. -/
def Lookup (op : Nat) : Except Text Definition :=
  match definitions op with
  | none => .error ("opcode " ++ fmtD op ++ " undefined")
  | some d => .ok d

/-- The second loop of `Make`: `for i, o := range operands`. -/
def MakeLoop (widths : List Int) :
    List Int → Nat → Int → Instructions → Except Panic Instructions
  | [], _, _, instruction => .ok instruction
  | o :: os, i, offset, instruction =>
    match widths.get? i with
    | none => .error .indexOutOfRange
    | some width =>
      let written :=
        if width = 2 then PutUint16 instruction offset (uint16 o)
        else if width = 1 then putByte instruction offset (byte o)
        else .ok instruction
      match written with
      | .error p => .error p
      | .ok instruction => MakeLoop widths os (i + 1) (offset + width) instruction

/-- Go `Make`. -/
def Make (op : Opcode) (operands : List Int) : Except Panic Instructions :=
  match definitions op with
  | none => .ok []
  | some d =>
    let instructionLen : Int := d.OperandWidths.foldl (fun acc w => acc + w) 1
    if instructionLen < 0 then .error .makeLenOutOfRange
    else
      match putByte (List.replicate instructionLen.toNat 0) 0 (op % 256) with
      | .error p => .error p
      | .ok instruction => MakeLoop d.OperandWidths operands 0 1 instruction

/-- The loop of `ReadOperands`: the operands decoded so far are `acc`. -/
def ReadOperandsLoop (ins : Instructions) :
    List Int → Int → List Int → Except Panic (List Int × Int)
  | [], offset, acc => .ok (acc, offset)
  | width :: ws, offset, acc =>
    let value : Except Panic Int :=
      if width = 2 then
        match sliceFrom ins offset with
        | .error p => .error p
        | .ok s => (ReadUint16 s).map Int.ofNat
      else if width = 1 then
        match sliceFrom ins offset with
        | .error p => .error p
        | .ok s => (ReadUint8 s).map Int.ofNat
      else .ok 0
    match value with
    | .error p => .error p
    | .ok v => ReadOperandsLoop ins ws (offset + width) (acc ++ [v])

/-- Go `ReadOperands`. -/
def ReadOperands (d : Definition) (ins : Instructions) : Except Panic (List Int × Int) :=
  ReadOperandsLoop ins d.OperandWidths 0 []

/-! ## Disassembly -/

/-- Go `Instructions.fmtInstruction`. -/
def Instructions.fmtInstruction (_ins : Instructions) (d : Definition) (operands : List Int) :
    Text :=
  let operandCount := d.OperandWidths.length
  if operands.length ≠ operandCount then
    "ERROR: operand len " ++ fmtD operands.length ++ " does not match defined "
      ++ fmtD operandCount ++ "\n"
  else
    match operandCount with
    | 0 => d.Name
    | 1 => d.Name ++ " " ++ fmtD (operands.getD 0 0)
    | 2 => d.Name ++ " " ++ fmtD (operands.getD 0 0) ++ " " ++ fmtD (operands.getD 1 0)
    | _ => "ERROR: unhandled operandCount for " ++ d.Name ++ "\n"

/-- The loop of `Instructions.String` from cursor `i` with buffer `out`.
`none`: the fuel ran out while the loop was still running. -/
def Instructions.StringLoop (ins : Instructions) :
    Nat → Int → Text → Option (Except Panic Text)
  | 0, _, _ => none
  | fuel + 1, i, out =>
    if i < ins.length then
      match index ins i with
      | .error p => some (.error p)
      | .ok b =>
        match Lookup b with
        | .error err => Instructions.StringLoop ins fuel i (out ++ "ERROR: " ++ err ++ "\n")
        | .ok d =>
          match sliceFrom ins (i + 1) with
          | .error p => some (.error p)
          | .ok rest =>
            match ReadOperands d rest with
            | .error p => some (.error p)
            | .ok (operands, read) =>
              Instructions.StringLoop ins fuel (i + 1 + read)
                (out ++ fmt04d i ++ " " ++ Instructions.fmtInstruction ins d operands ++ "\n")
    else some (.ok out)

/-- Go `Instructions.String`, run with `fuel` loop iterations available. -/
def Instructions.String (ins : Instructions) (fuel : Nat) : Option (Except Panic Text) :=
  Instructions.StringLoop ins fuel 0 ""

/-! ## Specification-side definitions

These follow the words of the specification; the theorems below compare
them with the functions embedded from the source. -/

/-- Operand `o` fits a slot of `w` bytes: `0 ≤ o ≤ 2^(8*w) - 1`. -/
def InRange (o w : Int) : Prop := 0 ≤ o ∧ o < 2 ^ (8 * w.toNat)

instance (o w : Int) : Decidable (InRange o w) := by unfold InRange; infer_instance

/-- Bytes of the operands, big-endian, in declaration order. -/
def encodeOperands : List Int → List Int → List Nat
  | w :: ws, o :: os =>
    (if w = 2 then [uint16 o / 256, uint16 o % 256] else if w = 1 then [byte o] else [])
      ++ encodeOperands ws os
  | _, _ => []

/-- The unsigned integer whose big-endian digits in base 256 are `bs`. -/
def bigEndian (bs : List Nat) : Nat := bs.foldl (fun acc b => acc * 256 + b) 0

/-- Values read left to right from `ins`, starting at `offset`, one per width. -/
def decodeFrom (ins : Instructions) : List Int → Int → List Int
  | [], _ => []
  | w :: ws, offset =>
    (bigEndian ((ins.drop offset.toNat).take w.toNat) : Int) :: decodeFrom ins ws (offset + w)

/-- What the specification says `ReadOperands d ins` returns: one value per
declared operand, the `i`-th being the big-endian unsigned integer held in the
`w_i` bytes of `ins` that start at the sum of the widths before `i`, and the
sum of all widths as the number of bytes consumed. -/
def ReadOperandsDecodes (d : Definition) (ins : Instructions) : Prop :=
  ∃ vals : List Int,
    ReadOperands d ins = .ok (vals, d.OperandWidths.sum) ∧
    vals.length = d.OperandWidths.length ∧
    ∀ i w, d.OperandWidths.get? i = some w →
      vals.get? i
        = some ((bigEndian ((ins.drop ((d.OperandWidths.take i).sum).toNat).take w.toNat) : Nat) : Int)

/-- Operand widths the table declares for `op` (none for an unknown opcode). -/
def opWidths (op : Opcode) : List Int :=
  match definitions op with
  | some d => d.OperandWidths
  | none => []

/-- Name the table gives to `op`. -/
def opName (op : Opcode) : Text :=
  match definitions op with
  | some d => d.Name
  | none => ""

/-- The operand part of a disassembly line: ` <operand>` in decimal for each operand. -/
def operandsText : List Int → Text
  | [] => ""
  | o :: os => " " ++ fmtD o ++ operandsText os

/-- One disassembly line: `<offset> <name>`, then ` <operand>` per operand, then a newline. -/
def disasmLine (offset : Int) (op : Opcode) (operands : List Int) : Text :=
  fmt04d offset ++ " " ++ opName op ++ operandsText operands ++ "\n"

/-- Concatenation of lines, in order. -/
def concatLines : List Text → Text
  | [] => ""
  | l :: ls => l ++ concatLines ls

/-- The bytes `Make` returns for one instruction (none if `Make` fails). -/
def encodeInstr (p : Opcode × List Int) : Instructions :=
  match Make p.1 p.2 with
  | .ok b => b
  | .error _ => []

/-- The instruction stream of a program: the concatenation of `Make` over its instructions. -/
def assemble : List (Opcode × List Int) → Instructions
  | [] => []
  | p :: ps => encodeInstr p ++ assemble ps

/-- The listing the specification describes for a program placed at byte `offset`. -/
def listing : List (Opcode × List Int) → Int → Text
  | [], _ => ""
  | p :: ps, offset =>
    disasmLine offset p.1 p.2 ++ listing ps (offset + (encodeInstr p).length)

/-- A complete encoded instruction: an opcode of the table followed by exactly
as many operand bytes as its definition declares. -/
def WellFormedInstr (p : Opcode × List Nat) : Prop :=
  ∃ d, definitions p.1 = some d ∧ (p.2.length : Int) = d.OperandWidths.sum

/-- The byte stream made of the given encoded instructions. -/
def rawStream : List (Opcode × List Nat) → Instructions
  | [] => []
  | p :: ps => (p.1 :: p.2) ++ rawStream ps

/-- Byte offsets at which the instructions of a stream placed at `offset` start. -/
def lineOffsets : List (Opcode × List Nat) → Int → List Int
  | [], _ => []
  | p :: ps, offset => offset :: lineOffsets ps (offset + (1 + p.2.length))

/-- The disassembly line of an encoded instruction printed with offset `offset`. -/
def rawLine (offset : Int) (p : Opcode × List Nat) : Text :=
  disasmLine offset p.1 (decodeFrom p.2 (opWidths p.1) 0)

/-- The operands reduced modulo the size of their slots: `o mod 2^(8*w)`. -/
def reduceOperands (ws os : List Int) : List Int :=
  List.zipWith (fun o w => o % 2 ^ (8 * w.toNat)) os ws

/-- `Make op operands` silently truncates: the opcode is in the table, the
operand vector has the right length but an operand out of range, and still
`Make` returns an instruction from which `ReadOperands` decodes, with no error,
in-range operands that differ from the ones given. -/
def SilentlyTruncates (op : Opcode) (operands : List Int) : Prop :=
  ∃ d b rest vals n, definitions op = some d ∧
    operands.length = d.OperandWidths.length ∧
    ¬ List.Forall₂ InRange operands d.OperandWidths ∧
    Make op operands = .ok b ∧ sliceFrom b 1 = .ok rest ∧
    ReadOperands d rest = .ok (vals, n) ∧
    List.Forall₂ InRange vals d.OperandWidths ∧ vals ≠ operands

end Code

namespace Object

/-- Modelled from the spec: the declaration of `object.CompiledFunction` is not
among the sources. The specification describes the compiled-function template
as the record of its instructions, its local-slot count and its parameter
count. -/
structure CompiledFunction where
  Instructions : Code.Instructions
  NumLocals : Int
  NumParameters : Int
  deriving DecidableEq, Repr

/-- Modelled from the spec: the declaration of `object.Closure` is not among
the sources. The specification describes a closure as a template reference
together with an ordered list of captured values; the type of values is a
parameter here. -/
structure Closure (Value : Type) where
  Fn : CompiledFunction
  Free : List Value

end Object

namespace Vm

/-- Go `type Frame struct { cl *object.Closure; ip int; basePointer int }`. -/
structure Frame (Value : Type) where
  cl : Option (Object.Closure Value)
  ip : Int
  basePointer : Int

/-- Go `NewFrame`. -/
def NewFrame {Value : Type} (cl : Option (Object.Closure Value)) (basePointer : Int) :
    Frame Value :=
  { cl := cl, ip := -1, basePointer := basePointer }

/-- Go `Frame.Instructions`: `f.cl.Fn.Instructions`. -/
def Frame.Instructions {Value : Type} (f : Frame Value) : Except Code.Panic Code.Instructions :=
  match f.cl with
  | none => .error .nilDereference
  | some cl => .ok cl.Fn.Instructions

end Vm

namespace Code

/-! ## Auxiliary lemmas -/

theorem lookup_some_mem {β : Type} (l : List (Nat × β)) (k : Nat) (v : β)
    (h : l.lookup k = some v) : (k, v) ∈ l := by
  induction l with
  | nil => simp [List.lookup] at h
  | cons p l ih =>
    obtain ⟨a, b⟩ := p
    by_cases hk : k = a
    · subst hk
      simp [List.lookup] at h
      simp [h]
    · have hb : (k == a) = false := by simpa using hk
      simp only [List.lookup, hb] at h
      exact List.mem_cons_of_mem _ (ih h)

theorem definitionsTable_all :
    ∀ p ∈ definitionsTable, p.1 < 29 ∧ definitions p.1 = some p.2 ∧
      (p.2.OperandWidths = [] ∨ p.2.OperandWidths = [2] ∨ p.2.OperandWidths = [1]
        ∨ p.2.OperandWidths = [2, 1]) := by
  decide

theorem definitions_shape (op : Nat) (d : Definition) (h : definitions op = some d) :
    op < 29 ∧ (op, d) ∈ definitionsTable ∧
    (d.OperandWidths = [] ∨ d.OperandWidths = [2] ∨ d.OperandWidths = [1] ∨ d.OperandWidths = [2, 1]) := by
  have hm := lookup_some_mem _ _ _ h
  have := definitionsTable_all _ hm
  exact ⟨this.1, hm, this.2.2⟩

theorem uint16_div_lt (o : Int) : uint16 o / 256 % 256 = uint16 o / 256 := by
  unfold uint16; omega

theorem Make_eq_encode (op : Nat) (d : Definition) (operands : List Int)
    (hd : definitions op = some d) (hlen : operands.length = d.OperandWidths.length) :
    Make op operands = .ok (op :: encodeOperands d.OperandWidths operands) := by
  obtain ⟨hop, -, hs⟩ := definitions_shape op d hd
  have hmod : op % 256 = op := by omega
  unfold Make
  rw [hd]
  obtain ⟨name, ws⟩ := d
  dsimp only at hs hlen ⊢
  rcases hs with hs | hs | hs | hs <;> subst hs
  · match operands, hlen with
    | [], _ => simp [putByte, MakeLoop, encodeOperands, hmod]
  · match operands, hlen with
    | [o], _ => 
      simp [putByte, MakeLoop, encodeOperands, hmod, PutUint16, uint16_div_lt]
  · match operands, hlen with
    | [o], _ => simp [putByte, MakeLoop, encodeOperands, hmod]
  · match operands, hlen with
    | [o, o2], _ => simp [putByte, MakeLoop, encodeOperands, hmod, PutUint16, uint16_div_lt]

theorem be16 (o : Int) (h0 : 0 ≤ o) (h1 : o < 65536) :
    ((uint16 o / 256 * 256 + uint16 o % 256 : Nat) : Int) = o := by
  unfold uint16; omega

theorem be8 (o : Int) (h0 : 0 ≤ o) (h1 : o < 256) : ((byte o : Nat) : Int) = o := by
  unfold byte; omega


theorem sliceFrom_eq (ins : Instructions) (offset : Int) (h0 : 0 ≤ offset)
    (h1 : offset ≤ ins.length) : sliceFrom ins offset = .ok (ins.drop offset.toNat) := by
  simp [sliceFrom, h0, h1]

theorem ReadUint16_eq (s : Instructions) (h : 2 ≤ s.length) :
    ReadUint16 s = .ok (bigEndian (s.take 2)) := by
  match s, h with
  | b0 :: b1 :: t, _ => simp [ReadUint16, bigEndian]

theorem ReadUint8_eq (s : Instructions) (h : 1 ≤ s.length) :
    ReadUint8 s = .ok (bigEndian (s.take 1)) := by
  match s, h with
  | b0 :: t, _ => simp [ReadUint8, bigEndian]

theorem sum_nonneg_of_widths (ws : List Int) (hw : ∀ w ∈ ws, 0 ≤ w ∧ w ≤ 2) : 0 ≤ ws.sum := by
  induction ws with
  | nil => simp
  | cons w ws ih =>
    have h1 := (hw w (by simp)).1
    have h2 := ih (fun x hx => hw x (by simp [hx]))
    simp only [List.sum_cons]; omega

theorem ReadOperandsLoop_ok (ins : Instructions) (ws : List Int) :
    ∀ (offset : Int) (acc : List Int), (∀ w ∈ ws, 0 ≤ w ∧ w ≤ 2) → 0 ≤ offset →
      offset + ws.sum ≤ ins.length →
      ReadOperandsLoop ins ws offset acc
        = .ok (acc ++ decodeFrom ins ws offset, offset + ws.sum) := by
  induction ws with
  | nil => intro offset acc _ _ _; simp [ReadOperandsLoop, decodeFrom]
  | cons w ws ih =>
    intro offset acc hw h0 hlen
    have hw0 := hw w (by simp)
    have hws : ∀ x ∈ ws, 0 ≤ x ∧ x ≤ 2 := fun x hx => hw x (by simp [hx])
    have hsum := sum_nonneg_of_widths ws hws
    simp only [List.sum_cons] at hlen
    have hrec := ih (offset + w) (acc ++ [(bigEndian ((ins.drop offset.toNat).take w.toNat) : Int)])
      hws (by omega) (by omega)
    have hsl := sliceFrom_eq ins offset h0 (by omega)
    have hdl : (ins.drop offset.toNat).length = ins.length - offset.toNat := by simp
    unfold ReadOperandsLoop
    by_cases h2 : w = 2
    · subst h2
      have hr := ReadUint16_eq (ins.drop offset.toNat) (by omega)
      simp only [if_true, hsl, hr, Except.map]
      rw [show (2 : Int).toNat = 2 from rfl] at hrec
      simp only [Int.ofNat_eq_coe]
      rw [hrec]
      simp [decodeFrom, add_assoc]
    · by_cases h1 : w = 1
      · subst h1
        have hr := ReadUint8_eq (ins.drop offset.toNat) (by omega)
        simp only [if_true, hsl, hr, Except.map]
        rw [show (1 : Int).toNat = 1 from rfl] at hrec
        simp only [Int.ofNat_eq_coe]
        simp only [show ((1 : Int) = 2) = False from by simp, if_false]
        rw [hrec]
        simp [decodeFrom, add_assoc]
      · have hz : w = 0 := by omega
        subst hz
        simp only [show ((0 : Int) = 2) = False from by simp,
          show ((0 : Int) = 1) = False from by simp, if_false]
        have hb : (bigEndian ((ins.drop offset.toNat).take (0 : Int).toNat) : Int) = 0 := by
          simp [bigEndian]
        rw [hb] at hrec
        simp only [add_zero] at hrec ⊢
        rw [hrec]
        simp [decodeFrom, bigEndian]

theorem ReadOperands_ok (d : Definition) (ins : Instructions)
    (hw : ∀ w ∈ d.OperandWidths, 0 ≤ w ∧ w ≤ 2) (hlen : d.OperandWidths.sum ≤ ins.length) :
    ReadOperands d ins = .ok (decodeFrom ins d.OperandWidths 0, d.OperandWidths.sum) := by
  have := ReadOperandsLoop_ok ins d.OperandWidths 0 [] hw (le_refl 0) (by omega)
  simpa [ReadOperands] using this

theorem shape_widths (ws : List Int)
    (hs : ws = [] ∨ ws = [2] ∨ ws = [1] ∨ ws = [2, 1]) : ∀ w ∈ ws, w = 1 ∨ w = 2 := by
  rcases hs with hs | hs | hs | hs <;> subst hs <;> simp

theorem encodeOperands_length (ws os : List Int)
    (hs : ws = [] ∨ ws = [2] ∨ ws = [1] ∨ ws = [2, 1]) (hlen : os.length = ws.length) :
    ((encodeOperands ws os).length : Int) = ws.sum := by
  rcases hs with hs | hs | hs | hs <;> subst hs
  · match os, hlen with
    | [], _ => simp [encodeOperands]
  · match os, hlen with
    | [o], _ => simp [encodeOperands]
  · match os, hlen with
    | [o], _ => simp [encodeOperands]
  · match os, hlen with
    | [o, o2], _ => simp [encodeOperands]

theorem decodeFrom_encode (ws os : List Int) (rest : List Nat)
    (hs : ws = [] ∨ ws = [2] ∨ ws = [1] ∨ ws = [2, 1])
    (hr : List.Forall₂ InRange os ws) :
    decodeFrom (encodeOperands ws os ++ rest) ws 0 = os := by
  rcases hs with hs | hs | hs | hs <;> subst hs
  · cases hr
    simp [decodeFrom]
  · obtain _ | ⟨h, hr⟩ := hr
    cases hr
    have := be16 _ h.1 (by simpa using h.2)
    simpa [decodeFrom, encodeOperands, bigEndian] using this
  · obtain _ | ⟨h, hr⟩ := hr
    cases hr
    have := be8 _ h.1 (by simpa using h.2)
    simpa [decodeFrom, encodeOperands, bigEndian] using this
  · obtain _ | ⟨h, hr⟩ := hr
    obtain _ | ⟨h2, hr⟩ := hr
    cases hr
    have := be16 _ h.1 (by simpa using h.2)
    have := be8 _ h2.1 (by simpa using h2.2)
    simp [decodeFrom, encodeOperands, bigEndian]
    constructor <;> assumption

/-! ## Encoding and decoding: claims C1 to C5 -/

/-- C1. Round trip: for every opcode `op` of the table and every operand vector
that matches its declared widths (same length, the `i`-th operand in
`[0, 2^(8*w_i) - 1]`), `Make` returns bytes `b` such that `Lookup(b[0])`
succeeds with the definition of `op` and `ReadOperands` on `b[1:]` returns
exactly the operands and `len(b) - 1` as the number of bytes consumed. -/
theorem Make_ReadOperands_roundtrip (op : Opcode) (d : Definition) (operands : List Int)
    (hd : definitions op = some d)
    (hr : List.Forall₂ InRange operands d.OperandWidths) :
    ∃ b b0 rest, Make op operands = .ok b ∧ index b 0 = .ok b0 ∧ Lookup b0 = .ok d ∧
      sliceFrom b 1 = .ok rest ∧
      ReadOperands d rest = .ok (operands, (b.length : Int) - 1) := by
  obtain ⟨-, -, hs⟩ := definitions_shape op d hd
  have hlen := hr.length_eq
  refine ⟨op :: encodeOperands d.OperandWidths operands, op,
    encodeOperands d.OperandWidths operands, Make_eq_encode op d operands hd hlen, ?_, ?_, ?_, ?_⟩
  · simp [index]
  · simp [Lookup, hd]
  · simp [sliceFrom]
  · have hl := encodeOperands_length d.OperandWidths operands hs hlen
    have hw : ∀ w ∈ d.OperandWidths, 0 ≤ w ∧ w ≤ 2 := by
      intro w hw
      rcases shape_widths _ hs w hw with h | h <;> omega
    rw [ReadOperands_ok d _ hw (by omega)]
    have := decodeFrom_encode d.OperandWidths operands [] hs hr
    simp only [List.append_nil] at this
    rw [this]
    simp [hl]

/-- Witness of C1 at `Make(OpClosure, 65535, 255)`. -/
theorem Make_ReadOperands_roundtrip_witness :
    ∃ b b0 rest, Make OpClosure [65535, 255] = .ok b ∧ index b 0 = .ok b0 ∧
      Lookup b0 = .ok ⟨"OpClosure", [2, 1]⟩ ∧ sliceFrom b 1 = .ok rest ∧
      ReadOperands ⟨"OpClosure", [2, 1]⟩ rest = .ok ([65535, 255], (b.length : Int) - 1) :=
  Make_ReadOperands_roundtrip OpClosure ⟨"OpClosure", [2, 1]⟩ [65535, 255] (by decide)
    (List.Forall₂.cons (by decide) (List.Forall₂.cons (by decide) List.Forall₂.nil))

/-- C2. For every opcode of the table and every operand vector whose length is
the arity of the opcode, `Make` returns a byte sequence of length
`1 + Σ widths` whose first byte is the opcode. -/
theorem Make_length_and_head (op : Opcode) (d : Definition) (operands : List Int)
    (hd : definitions op = some d) (hlen : operands.length = d.OperandWidths.length) :
    ∃ b, Make op operands = .ok b ∧ (b.length : Int) = 1 + d.OperandWidths.sum ∧
      index b 0 = .ok op := by
  obtain ⟨-, -, hs⟩ := definitions_shape op d hd
  refine ⟨_, Make_eq_encode op d operands hd hlen, ?_, ?_⟩
  · have hl := encodeOperands_length d.OperandWidths operands hs hlen
    simp only [List.length_cons, Nat.cast_add, Nat.cast_one]
    omega
  · simp [index]

/-- Witness of C2 at `Make(OpConstant, 70000)`: the operand need not be in range. -/
theorem Make_length_and_head_witness :
    ∃ b, Make OpConstant [70000] = .ok b ∧
      (b.length : Int) = 1 + (Definition.mk "OpConstant" [2]).OperandWidths.sum ∧
      index b 0 = .ok OpConstant :=
  Make_length_and_head OpConstant ⟨"OpConstant", [2]⟩ [70000] (by decide) (by decide)

/-- C3. Operands are laid out big-endian in declaration order: for every opcode
of the table and every operand vector matching its widths, the `i`-th operand
`o` starts at offset `1 + Σ (widths before i)` of the result of `Make`; in a
2-byte slot it is the byte `o / 256` followed by the byte `o mod 256`, in a
1-byte slot the single byte `o`. The two witnesses of the claim are part of
the statement. -/
theorem Make_layout_big_endian (op : Opcode) (d : Definition) (operands : List Int)
    (hd : definitions op = some d)
    (hr : List.Forall₂ InRange operands d.OperandWidths) :
    (∃ b, Make op operands = .ok b ∧
      ∀ i o w, operands.get? i = some o → d.OperandWidths.get? i = some w →
        (w = 2 → index b (1 + (d.OperandWidths.take i).sum) = .ok (o / 256).toNat ∧
          index b (1 + (d.OperandWidths.take i).sum + 1) = .ok (o % 256).toNat) ∧
        (w = 1 → index b (1 + (d.OperandWidths.take i).sum) = .ok o.toNat)) ∧
    Make OpConstant [65534] = .ok [0, 255, 254] ∧
    Make OpClosure [65534, 255] = .ok [27, 255, 254, 255] := by
  refine ⟨?_, by decide, by decide⟩
  obtain ⟨-, -, hs⟩ := definitions_shape op d hd
  have hlen := hr.length_eq
  refine ⟨_, Make_eq_encode op d operands hd hlen, ?_⟩
  obtain ⟨name, ws⟩ := d
  dsimp only at hs hr hlen ⊢
  have d16 : ∀ o : Int, InRange o 2 →
      uint16 o / 256 = (o / 256).toNat ∧ uint16 o % 256 = (o % 256).toNat := by
    intro o h
    have h2 : o < 65536 := by simpa using h.2
    have h1 := h.1
    unfold uint16; omega
  have d8 : ∀ o : Int, InRange o 1 → byte o = o.toNat := by
    intro o h
    have h2 : o < 256 := by simpa using h.2
    have h1 := h.1
    unfold byte; omega
  rcases hs with hs | hs | hs | hs <;> subst hs
  · cases hr
    intro i o w hi; simp at hi
  · obtain _ | ⟨h, hr⟩ := hr
    cases hr
    intro i o w hi hw
    match i, hi, hw with
    | 0, hi, hw =>
      simp at hi hw; subst hi; subst hw
      obtain ⟨e1, e2⟩ := d16 _ h
      simp [encodeOperands, index, e1, e2]
  · obtain _ | ⟨h, hr⟩ := hr
    cases hr
    intro i o w hi hw
    match i, hi, hw with
    | 0, hi, hw =>
      simp at hi hw; subst hi; subst hw
      simp [encodeOperands, index, d8 _ h]
  · obtain _ | ⟨h, hr⟩ := hr
    obtain _ | ⟨h2, hr⟩ := hr
    cases hr
    intro i o w hi hw
    match i, hi, hw with
    | 0, hi, hw =>
      simp at hi hw; subst hi; subst hw
      obtain ⟨e1, e2⟩ := d16 _ h
      simp [encodeOperands, index, e1, e2]
    | 1, hi, hw =>
      simp at hi hw; subst hi; subst hw
      simp [encodeOperands, index, d8 _ h2]

/-- Witness of C3 at `Make(OpClosure, 65534, 255)`. -/
theorem Make_layout_big_endian_witness :
    (∃ b, Make OpClosure [65534, 255] = .ok b ∧
      ∀ i o w, [(65534 : Int), 255].get? i = some o →
        (Definition.mk "OpClosure" [2, 1]).OperandWidths.get? i = some w →
        (w = 2 →
          index b (1 + ((Definition.mk "OpClosure" [2, 1]).OperandWidths.take i).sum)
            = .ok (o / 256).toNat ∧
          index b (1 + ((Definition.mk "OpClosure" [2, 1]).OperandWidths.take i).sum + 1)
            = .ok (o % 256).toNat) ∧
        (w = 1 →
          index b (1 + ((Definition.mk "OpClosure" [2, 1]).OperandWidths.take i).sum)
            = .ok o.toNat)) ∧
    Make OpConstant [65534] = .ok [0, 255, 254] ∧
    Make OpClosure [65534, 255] = .ok [27, 255, 254, 255] :=
  Make_layout_big_endian OpClosure ⟨"OpClosure", [2, 1]⟩ [65534, 255] (by decide)
    (List.Forall₂.cons (by decide) (List.Forall₂.cons (by decide) List.Forall₂.nil))

theorem definitions_of_ge (op : Nat) (h : 29 ≤ op) : definitions op = none := by
  cases hd : definitions op with
  | none => rfl
  | some d => have := (definitions_shape op d hd).1; omega

/-- C4. `Lookup` fails exactly on unknown opcodes: the keys of the table are
the 29 byte values `0..28`; for every byte `b`, `Lookup b` is an error if and
only if `b` is not below 29 (the error then being `opcode b undefined`), and
otherwise it is the definition the table holds for `b`. -/
theorem Lookup_error_iff_undefined (b : Nat) :
    definitionsTable.map Prod.fst = List.range 29 ∧
    ((∃ e, Lookup b = .error e) ↔ ¬ b < 29) ∧
    (¬ b < 29 → Lookup b = .error ("opcode " ++ fmtD b ++ " undefined")) ∧
    (b < 29 → ∃ d, (b, d) ∈ definitionsTable ∧ Lookup b = .ok d) := by
  have hge : ¬ b < 29 → Lookup b = .error ("opcode " ++ fmtD b ++ " undefined") := by
    intro h
    simp [Lookup, definitions_of_ge b (by omega)]
  have hlt : b < 29 → ∃ d, (b, d) ∈ definitionsTable ∧ Lookup b = .ok d := by
    intro h
    cases hd : definitions b with
    | none => interval_cases b <;> cases hd
    | some d => exact ⟨d, (definitions_shape b d hd).2.1, by simp [Lookup, hd]⟩
  refine ⟨by decide, ⟨?_, ?_⟩, hge, hlt⟩
  · rintro ⟨e, he⟩ hb
    obtain ⟨d, -, hd⟩ := hlt hb
    rw [hd] at he; cases he
  · intro h; exact ⟨_, hge h⟩

/-- Witness of C4 at the bytes 28 (the last opcode) and 29 (the first unknown one). -/
theorem Lookup_error_iff_undefined_witness :
    Lookup 28 = .ok ⟨"OpGetFree", [1]⟩ ∧ Lookup 29 = .error "opcode 29 undefined" ∧
    (∃ d, (28, d) ∈ definitionsTable ∧ Lookup 28 = .ok d) ∧
    Lookup 29 = .error ("opcode " ++ fmtD (29 : Nat) ++ " undefined") :=
  ⟨by decide, by decide, (Lookup_error_iff_undefined 28).2.2.2 (by decide),
    (Lookup_error_iff_undefined 29).2.2.1 (by decide)⟩

theorem decodeFrom_length (ins : Instructions) (ws : List Int) :
    ∀ offset : Int, (decodeFrom ins ws offset).length = ws.length := by
  induction ws with
  | nil => intro offset; simp [decodeFrom]
  | cons w ws ih => intro offset; simp [decodeFrom, ih]

theorem decodeFrom_get_eq (ins : Instructions) (ws : List Int) :
    ∀ (offset : Int) (i : Nat) (w : Int), ws.get? i = some w →
      (decodeFrom ins ws offset).get? i
        = some ((bigEndian ((ins.drop (offset + (ws.take i).sum).toNat).take w.toNat) : Nat) : Int) := by
  induction ws with
  | nil => intro offset i w h; simp at h
  | cons x ws ih =>
    intro offset i w h
    cases i with
    | zero =>
      simp at h; subst h
      simp [decodeFrom]
    | succ i =>
      simp at h
      have := ih (offset + x) i w (by simpa using h)
      simp only [decodeFrom, List.get?_cons_succ, List.take_succ_cons, List.sum_cons]
      rw [this, add_assoc]

/-- C5 as stated fails: for the definition with the single operand width 3 and
the three bytes `1, 2, 3` (enough bytes), `ReadOperands` returns the value `0`,
not the big-endian integer `66051` held in those bytes. -/
theorem ReadOperands_width3_counterexample :
    ¬ (∀ (d : Definition) (ins : Instructions),
        d.OperandWidths.sum ≤ ins.length → ReadOperandsDecodes d ins) := by
  intro h
  obtain ⟨vals, h1, -, h3⟩ := h ⟨"Op", [3]⟩ [1, 2, 3] (by decide)
  have hv : ReadOperands ⟨"Op", [3]⟩ [1, 2, 3] = .ok ([0], 3) := by decide
  rw [hv] at h1
  injection h1 with h1
  injection h1 with h1 _
  subst h1
  have := h3 0 3 (by decide)
  revert this
  decide

/-- C5, amended. For every definition whose declared widths are each 1 or 2
and every byte sequence with at least `Σ widths` bytes, `ReadOperands` returns
one value per declared operand, the `i`-th being the big-endian unsigned
integer held in the `w_i` bytes starting at the sum of the widths before `i`,
together with `Σ widths` as the number of bytes consumed. -/
theorem ReadOperands_decodes (d : Definition) (ins : Instructions)
    (hw : ∀ w ∈ d.OperandWidths, w = 1 ∨ w = 2)
    (hlen : d.OperandWidths.sum ≤ ins.length) :
    ReadOperandsDecodes d ins := by
  have hw2 : ∀ w ∈ d.OperandWidths, 0 ≤ w ∧ w ≤ 2 := by
    intro w h
    rcases hw w h with h | h <;> omega
  refine ⟨decodeFrom ins d.OperandWidths 0, ReadOperands_ok d ins hw2 hlen,
    decodeFrom_length _ _ _, ?_⟩
  intro i w hi
  have := decodeFrom_get_eq ins d.OperandWidths 0 i w hi
  simpa using this

/-- Witness of the amended C5 at the widths `[2, 1]` and the bytes `255, 254, 7, 9`. -/
theorem ReadOperands_decodes_witness :
    ReadOperandsDecodes ⟨"OpClosure", [2, 1]⟩ [255, 254, 7, 9] ∧
    ReadOperands ⟨"OpClosure", [2, 1]⟩ [255, 254, 7, 9] = .ok ([65534, 7], 3) :=
  ⟨ReadOperands_decodes ⟨"OpClosure", [2, 1]⟩ [255, 254, 7, 9] (by decide) (by decide),
    by decide⟩


/-! ## Disassembly: claims C6 to C8 -/

theorem index_append (pre : Instructions) (x : Nat) (rest : Instructions) :
    index (pre ++ x :: rest) pre.length = .ok x := by
  have h : (pre.length : Int) < ((pre ++ x :: rest).length : Int) := by
    simp only [List.length_append, List.length_cons, Nat.cast_add, Nat.cast_one]; omega
  have hg : (pre ++ x :: rest).getD pre.length 0 = x := by
    rw [List.getD_append_right _ _ _ _ (le_refl _)]; simp
  unfold index
  rw [if_pos ⟨by omega, h⟩, Int.toNat_ofNat, hg]

theorem sliceFrom_append (pre : Instructions) (x : Nat) (rest : Instructions) :
    sliceFrom (pre ++ x :: rest) (pre.length + 1) = .ok rest := by
  have h : ((pre.length : Int) + 1) ≤ ((pre ++ x :: rest).length : Int) := by
    simp only [List.length_append, List.length_cons, Nat.cast_add, Nat.cast_one]; omega
  unfold sliceFrom
  rw [if_pos ⟨by omega, h⟩]
  have ht : ((pre.length : Int) + 1).toNat = (pre ++ [x]).length := by
    simp only [List.length_append, List.length_cons, List.length_nil]; omega
  rw [ht]
  have : pre ++ x :: rest = (pre ++ [x]) ++ rest := by simp
  rw [this, List.drop_left]

theorem decodeFrom_append (bs rest : Instructions) (ws : List Int) :
    ∀ offset : Int, (∀ w ∈ ws, 0 ≤ w ∧ w ≤ 2) → 0 ≤ offset → offset + ws.sum ≤ bs.length →
      decodeFrom (bs ++ rest) ws offset = decodeFrom bs ws offset := by
  induction ws with
  | nil => intro offset _ _ _; simp [decodeFrom]
  | cons w ws ih =>
    intro offset hw h0 hlen
    have hw0 := hw w (by simp)
    have hws : ∀ x ∈ ws, 0 ≤ x ∧ x ≤ 2 := fun x hx => hw x (by simp [hx])
    have hsum := sum_nonneg_of_widths ws hws
    simp only [List.sum_cons] at hlen
    simp only [decodeFrom]
    rw [ih (offset + w) hws (by omega) (by omega)]
    rw [List.drop_append_of_le_length (by omega)]
    rw [List.take_append_of_le_length (by simp; omega)]

theorem fmtInstruction_eq (ins : Instructions) (d : Definition) (vals : List Int)
    (hs : d.OperandWidths = [] ∨ d.OperandWidths = [2] ∨ d.OperandWidths = [1]
        ∨ d.OperandWidths = [2, 1])
    (hlen : vals.length = d.OperandWidths.length) :
    Instructions.fmtInstruction ins d vals = d.Name ++ operandsText vals := by
  obtain ⟨name, ws⟩ := d
  dsimp only at hs hlen ⊢
  rcases hs with hs | hs | hs | hs <;> subst hs
  · match vals, hlen with
    | [], _ => simp [Instructions.fmtInstruction, operandsText]
  · match vals, hlen with
    | [v], _ => simp [Instructions.fmtInstruction, operandsText, String.append_assoc]
  · match vals, hlen with
    | [v], _ => simp [Instructions.fmtInstruction, operandsText, String.append_assoc]
  · match vals, hlen with
    | [v, v2], _ => simp [Instructions.fmtInstruction, operandsText, String.append_assoc]

theorem StringLoop_rawStream (instrs : List (Opcode × List Nat)) :
    ∀ (pre : Instructions) (fuel : Nat) (out : Text),
      (∀ p ∈ instrs, WellFormedInstr p) → instrs.length < fuel →
      Instructions.StringLoop (pre ++ rawStream instrs) fuel pre.length out
        = some (.ok (out ++ concatLines
            (List.zipWith rawLine (lineOffsets instrs pre.length) instrs))) := by
  induction instrs with
  | nil =>
    intro pre fuel out _ hf
    obtain ⟨f, rfl⟩ : ∃ f, fuel = f + 1 := ⟨fuel - 1, by simp at hf; omega⟩
    simp [Instructions.StringLoop, rawStream, lineOffsets, concatLines]
  | cons p ps ih =>
    intro pre fuel out hwf hf
    obtain ⟨f, rfl⟩ : ∃ f, fuel = f + 1 := ⟨fuel - 1, by simp at hf; omega⟩
    obtain ⟨op, bs⟩ := p
    obtain ⟨d, hd, hbl⟩ := hwf (op, bs) (by simp)
    dsimp only at hd hbl
    obtain ⟨-, -, hs⟩ := definitions_shape op d hd
    have hw : ∀ w ∈ d.OperandWidths, 0 ≤ w ∧ w ≤ 2 := by
      intro w hw
      rcases shape_widths _ hs w hw with h | h <;> omega
    have hstream : pre ++ rawStream ((op, bs) :: ps) = pre ++ op :: (bs ++ rawStream ps) := by
      simp [rawStream]
    have hlt : (pre.length : Int) < ((pre ++ rawStream ((op, bs) :: ps)).length : Int) := by
      rw [hstream]
      simp only [List.length_append, List.length_cons, Nat.cast_add, Nat.cast_one]; omega
    have hidx : index (pre ++ rawStream ((op, bs) :: ps)) pre.length = .ok op := by
      rw [hstream]; exact index_append _ _ _
    have hsl : sliceFrom (pre ++ rawStream ((op, bs) :: ps)) (pre.length + 1)
        = .ok (bs ++ rawStream ps) := by
      rw [hstream]; exact sliceFrom_append _ _ _
    have hrd : ReadOperands d (bs ++ rawStream ps)
        = .ok (decodeFrom bs d.OperandWidths 0, d.OperandWidths.sum) := by
      rw [ReadOperands_ok d _ hw (by simp only [List.length_append, Nat.cast_add]; omega)]
      rw [decodeFrom_append bs _ _ 0 hw (le_refl 0) (by omega)]
    have hlk : Lookup op = .ok d := by simp [Lookup, hd]
    have hfmt := fmtInstruction_eq (pre ++ rawStream ((op, bs) :: ps)) d
      (decodeFrom bs d.OperandWidths 0) hs (decodeFrom_length _ _ _)
    have hnext : ((pre.length : Int) + 1 + d.OperandWidths.sum) = ((pre ++ op :: bs).length : Int) := by
      simp only [List.length_append, List.length_cons, Nat.cast_add, Nat.cast_one]; omega
    have hrec := ih (pre ++ op :: bs) f
      (out ++ fmt04d pre.length ++ " " ++ (d.Name ++ operandsText (decodeFrom bs d.OperandWidths 0))
        ++ "\n")
      (fun q hq => hwf q (by simp [hq])) (by simp at hf; omega)
    have hstream2 : pre ++ op :: bs ++ rawStream ps = pre ++ rawStream ((op, bs) :: ps) := by
      simp [rawStream]
    rw [hstream2] at hrec
    unfold Instructions.StringLoop
    rw [if_pos hlt, hidx]
    simp only [hlk, hsl, hrd, hfmt, hnext]
    rw [hrec]
    have hoff : ((pre ++ op :: bs).length : Int) = pre.length + (1 + bs.length) := by
      simp only [List.length_append, List.length_cons, Nat.cast_add, Nat.cast_one]; omega
    simp only [lineOffsets, List.zipWith_cons_cons, concatLines, rawLine, disasmLine, opName,
      opWidths, hd, hoff, String.append_assoc]


/-- The encoded form of a program instruction: its opcode and its operand bytes. -/
theorem encodeInstr_eq (p : Opcode × List Int) (d : Definition)
    (hd : definitions p.1 = some d) (hlen : p.2.length = d.OperandWidths.length) :
    encodeInstr p = p.1 :: encodeOperands d.OperandWidths p.2 := by
  simp [encodeInstr, Make_eq_encode p.1 d p.2 hd hlen]

theorem assemble_listing_raw (prog : List (Opcode × List Int))
    (hp : ∀ p ∈ prog, ∃ d, definitions p.1 = some d ∧
      List.Forall₂ InRange p.2 d.OperandWidths) :
    ∃ instrs : List (Opcode × List Nat), instrs.length = prog.length ∧
      (∀ q ∈ instrs, WellFormedInstr q) ∧ rawStream instrs = assemble prog ∧
      ∀ offset : Int,
        concatLines (List.zipWith rawLine (lineOffsets instrs offset) instrs)
          = listing prog offset := by
  induction prog with
  | nil => exact ⟨[], rfl, by simp, rfl, fun _ => rfl⟩
  | cons p ps ih =>
    obtain ⟨instrs, hl, hwf, hst, hli⟩ := ih (fun q hq => hp q (by simp [hq]))
    obtain ⟨d, hd, hr⟩ := hp p (by simp)
    obtain ⟨-, -, hs⟩ := definitions_shape p.1 d hd
    have hlen := hr.length_eq
    have he := encodeInstr_eq p d hd hlen
    have hel := encodeOperands_length d.OperandWidths p.2 hs hlen
    have hdec := decodeFrom_encode d.OperandWidths p.2 [] hs hr
    simp only [List.append_nil] at hdec
    refine ⟨(p.1, encodeOperands d.OperandWidths p.2) :: instrs, by simp [hl], ?_, ?_, ?_⟩
    · intro q hq
      rcases List.mem_cons.1 hq with h | h
      · subst h; exact ⟨d, hd, hel⟩
      · exact hwf q h
    · simp [rawStream, assemble, he, hst]
    · intro offset
      have hoff : offset + (1 + ((encodeOperands d.OperandWidths p.2).length : Int))
          = offset + ((encodeInstr p).length : Int) := by
        rw [he]; simp only [List.length_cons, Nat.cast_add, Nat.cast_one]; omega
      simp only [lineOffsets, List.zipWith_cons_cons, concatLines, listing, rawLine, opWidths,
        hd, hdec, hoff, hli]

/-- C6. For every program of table opcodes with operand vectors matching the
declared widths, `Instructions.String` of the concatenation of the `Make`
results returns (given more loop iterations than instructions) the
concatenation, in order, of one line per instruction: the byte offset
zero-padded to 4 digits, a space, the table name, then a space and the decimal
value for each operand, then a newline. The witness of the claim is part of
the statement. -/
theorem String_of_assembled_program (prog : List (Opcode × List Int))
    (hp : ∀ p ∈ prog, ∃ d, definitions p.1 = some d ∧
      List.Forall₂ InRange p.2 d.OperandWidths) :
    (∀ fuel, prog.length < fuel →
      Instructions.String (assemble prog) fuel = some (.ok (listing prog 0))) ∧
    Instructions.String
        (assemble [(OpAdd, []), (OpGetLocal, [1]), (OpConstant, [2]), (OpConstant, [65535]),
          (OpClosure, [65535, 255])]) 6
      = some (.ok ("0000 OpAdd\n0001 OpGetLocal 1\n0003 OpConstant 2\n"
          ++ "0006 OpConstant 65535\n0009 OpClosure 65535 255\n")) := by
  refine ⟨?_, by decide⟩
  intro fuel hf
  obtain ⟨instrs, hl, hwf, hst, hli⟩ := assemble_listing_raw prog hp
  have := StringLoop_rawStream instrs [] fuel "" hwf (by omega)
  simp only [List.nil_append, List.length_nil, Nat.cast_zero, String.empty_append] at this
  rw [hst, hli 0] at this
  exact this

/-- Witness of C6 at the program of the claim, with 6 loop iterations. -/
theorem String_of_assembled_program_witness :
    Instructions.String
        (assemble [(OpAdd, []), (OpGetLocal, [1]), (OpConstant, [2]), (OpConstant, [65535]),
          (OpClosure, [65535, 255])]) 6
      = some (.ok (listing [(OpAdd, []), (OpGetLocal, [1]), (OpConstant, [2]),
          (OpConstant, [65535]), (OpClosure, [65535, 255])] 0)) :=
  (String_of_assembled_program
    [(OpAdd, []), (OpGetLocal, [1]), (OpConstant, [2]), (OpConstant, [65535]),
      (OpClosure, [65535, 255])] (by decide)).1 6 (by decide)


theorem lineOffsets_length (instrs : List (Opcode × List Nat)) :
    ∀ start : Int, (lineOffsets instrs start).length = instrs.length := by
  induction instrs with
  | nil => intro start; rfl
  | cons p ps ih => intro start; simp [lineOffsets, ih]

theorem lineOffsets_ge (instrs : List (Opcode × List Nat)) :
    ∀ (start : Int), ∀ o ∈ lineOffsets instrs start, start ≤ o := by
  induction instrs with
  | nil => intro start o ho; simp [lineOffsets] at ho
  | cons p ps ih =>
    intro start o ho
    simp only [lineOffsets, List.mem_cons] at ho
    rcases ho with h | h
    · omega
    · have := ih _ o h; omega

theorem lineOffsets_pairwise (instrs : List (Opcode × List Nat)) :
    ∀ (start : Int), List.Pairwise (fun a b => a < b) (lineOffsets instrs start) := by
  induction instrs with
  | nil => intro start; simp [lineOffsets]
  | cons p ps ih =>
    intro start
    simp only [lineOffsets, List.pairwise_cons]
    refine ⟨?_, ih _⟩
    intro o ho
    have := lineOffsets_ge ps _ o ho; omega

theorem rawStream_length_cons (p : Opcode × List Nat) (ps : List (Opcode × List Nat)) :
    ((rawStream (p :: ps)).length : Int) = 1 + p.2.length + (rawStream ps).length := by
  simp only [rawStream, List.length_append, List.length_cons, Nat.cast_add, Nat.cast_one]
  omega

theorem lineOffsets_step (instrs : List (Opcode × List Nat)) :
    ∀ (start : Int) (k : Nat) (o : Int) (p : Opcode × List Nat),
      (∀ q ∈ instrs, WellFormedInstr q) →
      (lineOffsets instrs start).get? k = some o → instrs.get? k = some p →
      (∀ o2, (lineOffsets instrs start).get? (k + 1) = some o2 →
        o2 = o + 1 + (opWidths p.1).sum) ∧
      (k + 1 = instrs.length →
        o + 1 + (opWidths p.1).sum = start + (rawStream instrs).length) := by
  induction instrs with
  | nil => intro start k o p _ _ hp; simp at hp
  | cons q qs ih =>
    intro start k o p hwf ho hp
    cases k with
    | zero =>
      simp [lineOffsets] at ho hp
      subst ho; subst hp
      obtain ⟨d, hd, hbl⟩ := hwf q (by simp)
      have hw : opWidths q.1 = d.OperandWidths := by simp [opWidths, hd]
      rw [hw]
      constructor
      · intro o2 h2
        cases qs with
        | nil => simp [lineOffsets] at h2
        | cons r rs =>
          simp [lineOffsets] at h2
          omega
      · intro hk
        have hq : qs = [] := by
          cases qs with
          | nil => rfl
          | cons r rs => simp at hk
        subst hq
        have := rawStream_length_cons q []
        have h0 : ((rawStream []).length : Int) = 0 := rfl
        omega
    | succ k =>
      simp only [lineOffsets, List.get?_cons_succ] at ho hp
      obtain ⟨h1, h2⟩ := ih _ k o p (fun r hr => hwf r (by simp [hr])) ho hp
      constructor
      · intro o2 ho2
        simp only [lineOffsets, List.get?_cons_succ] at ho2
        exact h1 o2 ho2
      · intro hk
        have := h2 (by simpa using hk)
        have hl := rawStream_length_cons q qs
        omega

/-- C7. Disassembly offsets are monotonic. For every well-formed stream (a
concatenation of complete encoded instructions with opcodes of the table),
`Instructions.String` returns one line per instruction, the `k`-th printed with
the offset `lineOffsets[k]`; the first printed offset is 0, each next one is
the previous plus `1 + Σ widths` of the previous opcode, the printed offsets
strictly increase, and the last one plus its instruction length is the length
of the stream. -/
theorem String_offsets_monotonic (instrs : List (Opcode × List Nat))
    (hwf : ∀ p ∈ instrs, WellFormedInstr p) :
    (∀ fuel, instrs.length < fuel →
      Instructions.String (rawStream instrs) fuel
        = some (.ok (concatLines (List.zipWith rawLine (lineOffsets instrs 0) instrs)))) ∧
    (lineOffsets instrs 0).length = instrs.length ∧
    (∀ o, (lineOffsets instrs 0).head? = some o → o = 0) ∧
    (∀ k o p, (lineOffsets instrs 0).get? k = some o → instrs.get? k = some p →
      (∀ o2, (lineOffsets instrs 0).get? (k + 1) = some o2 →
        o2 = o + 1 + (opWidths p.1).sum) ∧
      (k + 1 = instrs.length → o + 1 + (opWidths p.1).sum = (rawStream instrs).length)) ∧
    List.Pairwise (fun a b => a < b) (lineOffsets instrs 0) := by
  refine ⟨?_, lineOffsets_length _ _, ?_, ?_, lineOffsets_pairwise _ _⟩
  · intro fuel hf
    have := StringLoop_rawStream instrs [] fuel "" hwf hf
    simpa [Instructions.String] using this
  · intro o ho
    cases instrs with
    | nil => simp [lineOffsets] at ho
    | cons p ps => simp [lineOffsets] at ho; omega
  · intro k o p ho hp
    have := lineOffsets_step instrs 0 k o p hwf ho hp
    simpa using this

/-- Witness of C7 at the stream `OpAdd; OpGetLocal 1; OpClosure 65535 255`,
whose lines are printed with the offsets 0, 1 and 3. -/
theorem String_offsets_monotonic_witness :
    Instructions.String (rawStream [(OpAdd, []), (OpGetLocal, [1]), (OpClosure, [255, 255, 255])]) 4
      = some (.ok (concatLines (List.zipWith rawLine
          (lineOffsets [(OpAdd, []), (OpGetLocal, [1]), (OpClosure, [255, 255, 255])] 0)
          [(OpAdd, []), (OpGetLocal, [1]), (OpClosure, [255, 255, 255])]))) ∧
    lineOffsets [(OpAdd, []), (OpGetLocal, [1]), (OpClosure, [255, 255, 255])] 0 = [0, 1, 3] :=
  ⟨(String_offsets_monotonic [(OpAdd, []), (OpGetLocal, [1]), (OpClosure, [255, 255, 255])]
      (by
        intro p hp
        simp only [List.mem_cons, List.mem_singleton, List.not_mem_nil, or_false] at hp
        rcases hp with h | h | h <;> subst h
        · exact ⟨_, rfl, by decide⟩
        · exact ⟨_, rfl, by decide⟩
        · exact ⟨_, rfl, by decide⟩)).1 4 (by decide),
    by decide⟩

theorem StringLoop_unknown_opcode (ins : Instructions) (i : Int) (b : Nat)
    (hi : i < ins.length) (hb : index ins i = .ok b) (hu : definitions b = none) :
    ∀ (fuel : Nat) (out : Text), Instructions.StringLoop ins fuel i out = none := by
  intro fuel
  induction fuel with
  | zero => intro out; rfl
  | succ f ih =>
    intro out
    unfold Instructions.StringLoop
    rw [if_pos hi, hb]
    simp only [Lookup, hu]
    exact ih _

/-- C8 on the code: on the one-byte stream `[29]` (29 is not an opcode of the
table) the loop of `Instructions.String` is still running after any number of
iterations: the cursor is not advanced past the unknown byte, so the call
never returns. -/
theorem String_unknown_opcode_never_returns :
    ∀ fuel : Nat, Instructions.String [29] fuel = none := by
  intro fuel
  exact StringLoop_unknown_opcode [29] 0 29 (by decide) (by decide) (by decide) fuel ""


/-! ## Out-of-range operands and unknown opcodes in `Make`: claims C9 and C10 -/

theorem be16_mod (o : Int) :
    ((uint16 o / 256 * 256 + uint16 o % 256 : Nat) : Int) = o % 65536 := by
  unfold uint16; omega

theorem be8_mod (o : Int) : ((byte o : Nat) : Int) = o % 256 := by
  unfold byte; omega

theorem decodeFrom_encode_mod (ws os : List Int) (rest : List Nat)
    (hs : ws = [] ∨ ws = [2] ∨ ws = [1] ∨ ws = [2, 1])
    (hlen : os.length = ws.length) :
    decodeFrom (encodeOperands ws os ++ rest) ws 0 = reduceOperands ws os := by
  rcases hs with hs | hs | hs | hs <;> subst hs
  · match os, hlen with
    | [], _ => simp [decodeFrom, reduceOperands]
  · match os, hlen with
    | [o], _ =>
      have := be16_mod o
      simpa [decodeFrom, encodeOperands, bigEndian, reduceOperands] using this
  · match os, hlen with
    | [o], _ =>
      have := be8_mod o
      simpa [decodeFrom, encodeOperands, bigEndian, reduceOperands] using this
  · match os, hlen with
    | [o, o2], _ =>
      have := be16_mod o
      have := be8_mod o2
      simp [decodeFrom, encodeOperands, bigEndian, reduceOperands]
      constructor <;> assumption

/-- C9 as stated fails: `Make(OpConstant, 65536)` is `[0, 0, 0]`, which decodes
to the operand `0`, and `Make(OpCall, 256)` is `[21, 0]`, which decodes to the
operand `0`; neither call signals an error. -/
theorem Make_silently_truncates_counterexample :
    SilentlyTruncates OpConstant [65536] ∧ SilentlyTruncates OpCall [256] :=
  ⟨⟨⟨"OpConstant", [2]⟩, [0, 0, 0], [0, 0], [0], 2, by decide, by decide, by decide,
      by decide, by decide, by decide, by decide, by decide⟩,
   ⟨⟨"OpCall", [1]⟩, [21, 0], [0], [0], 1, by decide, by decide, by decide,
      by decide, by decide, by decide, by decide, by decide⟩⟩

/-- C9, amended. For every opcode of the table and every operand vector of the
right length, whatever the integers in it, `Make` signals no error and stores
each operand reduced modulo the size of its slot: `ReadOperands` on the result
returns `o mod 65536` for a 2-byte slot and `o mod 256` for a 1-byte slot; an
operand in range is therefore returned unchanged. -/
theorem Make_reduces_operands_modulo (op : Opcode) (d : Definition) (operands : List Int)
    (hd : definitions op = some d) (hlen : operands.length = d.OperandWidths.length) :
    ∃ b rest, Make op operands = .ok b ∧ sliceFrom b 1 = .ok rest ∧
      ReadOperands d rest
        = .ok (reduceOperands d.OperandWidths operands, d.OperandWidths.sum) ∧
      (List.Forall₂ InRange operands d.OperandWidths →
        reduceOperands d.OperandWidths operands = operands) := by
  obtain ⟨-, -, hs⟩ := definitions_shape op d hd
  have hw : ∀ w ∈ d.OperandWidths, 0 ≤ w ∧ w ≤ 2 := by
    intro w hw
    rcases shape_widths _ hs w hw with h | h <;> omega
  have hl := encodeOperands_length d.OperandWidths operands hs hlen
  have hm := decodeFrom_encode_mod d.OperandWidths operands [] hs hlen
  simp only [List.append_nil] at hm
  refine ⟨_, encodeOperands d.OperandWidths operands, Make_eq_encode op d operands hd hlen,
    by simp [sliceFrom], ?_, ?_⟩
  · rw [ReadOperands_ok d _ hw (by omega), hm]
  · intro hr
    have := decodeFrom_encode d.OperandWidths operands [] hs hr
    simp only [List.append_nil] at this
    rw [← hm, this]

/-- Witness of the amended C9 at `Make(OpConstant, 65536)`. -/
theorem Make_reduces_operands_modulo_witness :
    ∃ b rest, Make OpConstant [65536] = .ok b ∧ sliceFrom b 1 = .ok rest ∧
      ReadOperands ⟨"OpConstant", [2]⟩ rest
        = .ok (reduceOperands (Definition.mk "OpConstant" [2]).OperandWidths [65536],
            (Definition.mk "OpConstant" [2]).OperandWidths.sum) ∧
      (List.Forall₂ InRange [65536] (Definition.mk "OpConstant" [2]).OperandWidths →
        reduceOperands (Definition.mk "OpConstant" [2]).OperandWidths [65536] = [65536]) :=
  Make_reduces_operands_modulo OpConstant ⟨"OpConstant", [2]⟩ [65536] (by decide) (by decide)

theorem putByte_length (instruction : Instructions) (offset : Int) (v : Nat)
    (b : Instructions) (h : putByte instruction offset v = .ok b) :
    b.length = instruction.length := by
  unfold putByte at h
  split at h
  · injection h with h; subst h; simp
  · cases h

theorem PutUint16_length (instruction : Instructions) (offset : Int) (v : Nat)
    (b : Instructions) (h : PutUint16 instruction offset v = .ok b) :
    b.length = instruction.length := by
  unfold PutUint16 at h
  split at h
  · split at h
    · injection h with h; subst h; simp
    · cases h
  · cases h

theorem MakeLoop_length (widths : List Int) (operands : List Int) :
    ∀ (i : Nat) (offset : Int) (instruction b : Instructions),
      MakeLoop widths operands i offset instruction = .ok b →
      b.length = instruction.length := by
  induction operands with
  | nil =>
    intro i offset instruction b h
    simp only [MakeLoop] at h
    injection h with h; subst h; rfl
  | cons o os ih =>
    intro i offset instruction b h
    unfold MakeLoop at h
    split at h
    · cases h
    · rename_i width _
      dsimp only at h
      split at h
      · cases h
      · rename_i next hnext
        have hn : next.length = instruction.length := by
          split at hnext
          · exact PutUint16_length _ _ _ _ hnext
          · split at hnext
            · exact putByte_length _ _ _ _ hnext
            · injection hnext with hnext; subst hnext; rfl
        rw [ih _ _ _ _ h, hn]

/-- C10. `Make` on an opcode that is not in the table (any value above 28)
returns the empty byte sequence for every operand vector, without failing;
`Make` on an opcode of the table with an operand vector of the right length
returns a non-empty sequence; and whenever `Make` returns, its result is empty
if and only if the opcode is not in the table. -/
theorem Make_empty_iff_undefined (op : Nat) (operands : List Int) :
    (definitions op = none ↔ 28 < op) ∧
    (28 < op → Make op operands = .ok []) ∧
    (∀ d, definitions op = some d → operands.length = d.OperandWidths.length →
      ∃ b, Make op operands = .ok b ∧ b ≠ []) ∧
    (∀ b, Make op operands = .ok b → (b = [] ↔ definitions op = none)) := by
  have hiff : definitions op = none ↔ 28 < op := by
    constructor
    · intro h
      by_contra hlt
      have : op < 29 := by omega
      interval_cases op <;> cases h
    · intro h; exact definitions_of_ge op (by omega)
  refine ⟨hiff, ?_, ?_, ?_⟩
  · intro h
    simp [Make, hiff.2 h]
  · intro d hd hlen
    exact ⟨_, Make_eq_encode op d operands hd hlen, by simp⟩
  · intro b hb
    cases hd : definitions op with
    | none =>
      simp only [Make, hd] at hb
      injection hb with hb
      simp [hb]
    | some d =>
      simp only [iff_false, reduceCtorEq]
      obtain ⟨-, -, hs⟩ := definitions_shape op d hd
      have hw : ∀ w ∈ d.OperandWidths, 0 ≤ w ∧ w ≤ 2 := by
        intro w hw
        rcases shape_widths _ hs w hw with h | h <;> omega
      have hsum := sum_nonneg_of_widths _ hw
      have hfold : List.foldl (fun acc w => acc + w) 1 d.OperandWidths
          = 1 + d.OperandWidths.sum := by
        rcases hs with hs | hs | hs | hs <;> rw [hs] <;> rfl
      simp only [Make, hd, hfold] at hb
      split at hb
      · cases hb
      · split at hb
        · cases hb
        · rename_i first hfirst
          have h1 := MakeLoop_length _ _ _ _ _ _ hb
          have h2 := putByte_length _ _ _ _ hfirst
          intro hnil
          subst hnil
          simp only [List.length_nil, List.length_replicate] at h1 h2
          omega

/-- Witness of C10 at the unknown opcode 29 and at `Make(OpAdd)`. -/
theorem Make_empty_iff_undefined_witness :
    Make 29 [1, 2, 3] = .ok [] ∧ (∃ b, Make OpAdd [] = .ok b ∧ b ≠ []) ∧
    (([] : Instructions) = [] ↔ definitions 29 = none) :=
  ⟨(Make_empty_iff_undefined 29 [1, 2, 3]).2.1 (by decide),
    (Make_empty_iff_undefined OpAdd []).2.2.1 ⟨"OpAdd", []⟩ (by decide) (by decide),
    (Make_empty_iff_undefined 29 [1, 2, 3]).2.2.2 [] (by decide)⟩

/-! ## The width table and decoded ranges: claims C11 and C12 -/

/-- C11. The operand-width table matches the documented binary format: every
declared width is 1 or 2; `OpConstant`, `OpJumpNotTruthy`, `OpJump`,
`OpGetGlobal`, `OpSetGlobal`, `OpArray` and `OpHash` take exactly one 2-byte
operand; `OpCall`, `OpGetLocal`, `OpSetLocal`, `OpGetBuiltin` and `OpGetFree`
exactly one 1-byte operand; `OpClosure` a 2-byte operand followed by a 1-byte
operand; and the remaining 16 opcodes of the table take no operands. -/
theorem definitions_operand_widths :
    (∀ p ∈ definitionsTable, ∀ w ∈ p.2.OperandWidths, w = 1 ∨ w = 2) ∧
    (∀ op ∈ [OpConstant, OpJumpNotTruthy, OpJump, OpGetGlobal, OpSetGlobal, OpArray, OpHash],
      (definitions op).map Definition.OperandWidths = some [2]) ∧
    (∀ op ∈ [OpCall, OpGetLocal, OpSetLocal, OpGetBuiltin, OpGetFree],
      (definitions op).map Definition.OperandWidths = some [1]) ∧
    (definitions OpClosure).map Definition.OperandWidths = some [2, 1] ∧
    (∀ op ∈ [OpAdd, OpPop, OpSub, OpMul, OpDiv, OpTrue, OpFalse, OpEqual, OpNotEqual,
        OpGreaterThan, OpMinus, OpBang, OpNull, OpIndex, OpReturnValue, OpReturn],
      (definitions op).map Definition.OperandWidths = some []) ∧
    (definitionsTable.filter (fun p => decide (p.2.OperandWidths = []))).map Prod.fst
      = [OpAdd, OpPop, OpSub, OpMul, OpDiv, OpTrue, OpFalse, OpEqual, OpNotEqual,
        OpGreaterThan, OpMinus, OpBang, OpNull, OpIndex, OpReturnValue, OpReturn] ∧
    [OpAdd, OpPop, OpSub, OpMul, OpDiv, OpTrue, OpFalse, OpEqual, OpNotEqual,
        OpGreaterThan, OpMinus, OpBang, OpNull, OpIndex, OpReturnValue, OpReturn].length = 16 := by
  refine ⟨by decide, by decide, by decide, by decide, by decide, by decide, by decide⟩

/-- Witness of C11 at `OpJump`, `OpGetFree` and `OpIndex`. -/
theorem definitions_operand_widths_witness :
    (definitions OpJump).map Definition.OperandWidths = some [2] ∧
    (definitions OpGetFree).map Definition.OperandWidths = some [1] ∧
    (definitions OpIndex).map Definition.OperandWidths = some [] :=
  ⟨definitions_operand_widths.2.1 OpJump (by decide),
    definitions_operand_widths.2.2.1 OpGetFree (by decide),
    definitions_operand_widths.2.2.2.2.1 OpIndex (by decide)⟩

/-- C12. Decoded operands are always in range: for every definition of the
table and every sequence of bytes long enough to decode, `ReadOperands`
returns values that lie in `[0, 65535]` for a declared width of 2 and in
`[0, 255]` for a declared width of 1. -/
theorem ReadOperands_values_in_range (op : Nat) (d : Definition) (ins : Instructions)
    (hd : definitions op = some d) (hb : ∀ b ∈ ins, b < 256)
    (hlen : d.OperandWidths.sum ≤ ins.length) :
    ∃ vals, ReadOperands d ins = .ok (vals, d.OperandWidths.sum) ∧
      List.Forall₂ InRange vals d.OperandWidths := by
  obtain ⟨-, -, hs⟩ := definitions_shape op d hd
  have hw : ∀ w ∈ d.OperandWidths, 0 ≤ w ∧ w ≤ 2 := by
    intro w hw
    rcases shape_widths _ hs w hw with h | h <;> omega
  refine ⟨_, ReadOperands_ok d ins hw hlen, ?_⟩
  have k2 : ∀ v : Nat, v < 65536 → InRange (v : Int) 2 := by
    intro v hv
    refine ⟨by positivity, ?_⟩
    have h : ((2 : Int) ^ (8 * (2 : Int).toNat)) = 65536 := by decide
    rw [h]; omega
  have k1 : ∀ v : Nat, v < 256 → InRange (v : Int) 1 := by
    intro v hv
    refine ⟨by positivity, ?_⟩
    have h : ((2 : Int) ^ (8 * (1 : Int).toNat)) = 256 := by decide
    rw [h]; omega
  obtain ⟨name, ws⟩ := d
  dsimp only at hs hlen ⊢
  rcases hs with hs | hs | hs | hs <;> subst hs
  · simp [decodeFrom]
  · match ins, hlen, hb with
    | [], hlen, _ => simp at hlen
    | [_], hlen, _ => simp at hlen
    | b0 :: b1 :: t, _, hb =>
      have h0 := hb b0 (by simp)
      have h1 := hb b1 (by simp)
      have e : bigEndian [b0, b1] = b0 * 256 + b1 := by simp [bigEndian]
      have := k2 (bigEndian [b0, b1]) (by omega)
      exact List.Forall₂.cons this List.Forall₂.nil
  · match ins, hlen, hb with
    | [], hlen, _ => simp at hlen
    | b0 :: t, _, hb =>
      have h0 := hb b0 (by simp)
      have e : bigEndian [b0] = b0 := by simp [bigEndian]
      have := k1 (bigEndian [b0]) (by omega)
      exact List.Forall₂.cons this List.Forall₂.nil
  · match ins, hlen, hb with
    | [], hlen, _ => simp at hlen
    | [_], hlen, _ => simp at hlen
    | [_, _], hlen, _ => simp at hlen
    | b0 :: b1 :: b2 :: t, _, hb =>
      have h0 := hb b0 (by simp)
      have h1 := hb b1 (by simp)
      have h2 := hb b2 (by simp)
      have e : bigEndian [b0, b1] = b0 * 256 + b1 := by simp [bigEndian]
      have e2 : bigEndian [b2] = b2 := by simp [bigEndian]
      have t1 := k2 (bigEndian [b0, b1]) (by omega)
      have t2 := k1 (bigEndian [b2]) (by omega)
      exact List.Forall₂.cons t1 (List.Forall₂.cons t2 List.Forall₂.nil)

/-- Witness of C12 at `OpClosure` and the bytes `255, 255, 255, 0`. -/
theorem ReadOperands_values_in_range_witness :
    ∃ vals, ReadOperands ⟨"OpClosure", [2, 1]⟩ [255, 255, 255, 0]
        = .ok (vals, (Definition.mk "OpClosure" [2, 1]).OperandWidths.sum) ∧
      List.Forall₂ InRange vals (Definition.mk "OpClosure" [2, 1]).OperandWidths :=
  ReadOperands_values_in_range OpClosure ⟨"OpClosure", [2, 1]⟩ [255, 255, 255, 0]
    (by decide) (by decide) (by decide)

/-! ## Operands reduced modulo the slot size: claim C14 -/

/-- C14. Out-of-range operands are reduced modulo the slot size: for every
opcode of the table and every operand vector of the right length, whatever the
integers in it (negative ones included), `Make` returns without error and
`ReadOperands` on its result returns, without error, one value per operand: the
value `o mod 65536` for an operand `o` in a 2-byte slot and `o mod 256` for one
in a 1-byte slot, with the non-negative modulus. -/
theorem Make_then_ReadOperands_mod (op : Nat) (d : Definition) (operands : List Int)
    (hd : definitions op = some d) (hlen : operands.length = d.OperandWidths.length) :
    ∃ b rest vals, Make op operands = .ok b ∧ sliceFrom b 1 = .ok rest ∧
      ReadOperands d rest = .ok (vals, d.OperandWidths.sum) ∧
      vals.length = operands.length ∧
      ∀ i o w, operands.get? i = some o → d.OperandWidths.get? i = some w →
        (w = 2 → vals.get? i = some (o % 65536) ∧ 0 ≤ o % 65536) ∧
        (w = 1 → vals.get? i = some (o % 256) ∧ 0 ≤ o % 256) := by
  obtain ⟨-, -, hs⟩ := definitions_shape op d hd
  have hw : ∀ w ∈ d.OperandWidths, 0 ≤ w ∧ w ≤ 2 := by
    intro w hw
    rcases shape_widths _ hs w hw with h | h <;> omega
  have hl := encodeOperands_length d.OperandWidths operands hs hlen
  have hm := decodeFrom_encode_mod d.OperandWidths operands [] hs hlen
  simp only [List.append_nil] at hm
  refine ⟨_, encodeOperands d.OperandWidths operands, reduceOperands d.OperandWidths operands,
    Make_eq_encode op d operands hd hlen, by simp [sliceFrom], ?_, ?_, ?_⟩
  · rw [ReadOperands_ok d _ hw (by omega), hm]
  · simp [reduceOperands, hlen]
  · obtain ⟨name, ws⟩ := d
    dsimp only at hs hlen ⊢
    intro i o w hi hwi
    rcases hs with hs | hs | hs | hs <;> subst hs
    · simp at hwi
    · match operands, hlen, i, hi, hwi with
      | [o1], _, 0, hi, hwi =>
        simp at hi hwi; subst hi; subst hwi
        simp [reduceOperands]; omega
    · match operands, hlen, i, hi, hwi with
      | [o1], _, 0, hi, hwi =>
        simp at hi hwi; subst hi; subst hwi
        simp [reduceOperands]; omega
    · match operands, hlen, i, hi, hwi with
      | [o1, o2], _, 0, hi, hwi =>
        simp at hi hwi; subst hi; subst hwi
        simp [reduceOperands]; omega
      | [o1, o2], _, 1, hi, hwi =>
        simp at hi hwi; subst hi; subst hwi
        simp [reduceOperands]; omega

/-- Witness of C14 at `Make(OpClosure, -1, 300)`, which decodes to `65535` and `44`. -/
theorem Make_then_ReadOperands_mod_witness :
    (∃ b rest vals, Make OpClosure [-1, 300] = .ok b ∧ sliceFrom b 1 = .ok rest ∧
      ReadOperands ⟨"OpClosure", [2, 1]⟩ rest
        = .ok (vals, (Definition.mk "OpClosure" [2, 1]).OperandWidths.sum) ∧
      vals.length = [(-1 : Int), 300].length ∧
      ∀ i o w, [(-1 : Int), 300].get? i = some o →
        (Definition.mk "OpClosure" [2, 1]).OperandWidths.get? i = some w →
        (w = 2 → vals.get? i = some (o % 65536) ∧ 0 ≤ o % 65536) ∧
        (w = 1 → vals.get? i = some (o % 256) ∧ 0 ≤ o % 256)) ∧
    Make OpClosure [-1, 300] = .ok [27, 255, 255, 44] ∧
    ReadOperands ⟨"OpClosure", [2, 1]⟩ [255, 255, 44] = .ok ([65535, 44], 3) :=
  ⟨Make_then_ReadOperands_mod OpClosure ⟨"OpClosure", [2, 1]⟩ [-1, 300] (by decide) (by decide),
    by decide, by decide⟩

/-! ## Bounds of `ReadOperands` and the formatting branches: claims C15 and C16 -/

theorem StringLoop_step (pre : Instructions) (op : Nat) (bs tail : Instructions)
    (d : Definition) (hd : definitions op = some d)
    (hbl : (bs.length : Int) = d.OperandWidths.sum) (fuel : Nat) (out : Text) :
    Instructions.StringLoop (pre ++ (op :: bs ++ tail)) (fuel + 1) pre.length out
      = Instructions.StringLoop (pre ++ (op :: bs ++ tail)) fuel
          (pre.length + (1 + bs.length)) (out ++ rawLine pre.length (op, bs)) := by
  obtain ⟨-, -, hs⟩ := definitions_shape op d hd
  have hw : ∀ w ∈ d.OperandWidths, 0 ≤ w ∧ w ≤ 2 := by
    intro w hw
    rcases shape_widths _ hs w hw with h | h <;> omega
  have hstream : pre ++ (op :: bs ++ tail) = pre ++ op :: (bs ++ tail) := by simp
  have hlt : (pre.length : Int) < ((pre ++ (op :: bs ++ tail)).length : Int) := by
    rw [hstream]
    simp only [List.length_append, List.length_cons, Nat.cast_add, Nat.cast_one]; omega
  have hidx : index (pre ++ (op :: bs ++ tail)) pre.length = .ok op := by
    rw [hstream]; exact index_append _ _ _
  have hsl : sliceFrom (pre ++ (op :: bs ++ tail)) (pre.length + 1) = .ok (bs ++ tail) := by
    rw [hstream]; exact sliceFrom_append _ _ _
  have hrd : ReadOperands d (bs ++ tail)
      = .ok (decodeFrom bs d.OperandWidths 0, d.OperandWidths.sum) := by
    rw [ReadOperands_ok d _ hw (by simp only [List.length_append, Nat.cast_add]; omega)]
    rw [decodeFrom_append bs _ _ 0 hw (le_refl 0) (by omega)]
  have hlk : Lookup op = .ok d := by simp [Lookup, hd]
  have hfmt := fmtInstruction_eq (pre ++ (op :: bs ++ tail)) d
    (decodeFrom bs d.OperandWidths 0) hs (decodeFrom_length _ _ _)
  have hnext : ((pre.length : Int) + 1 + d.OperandWidths.sum)
      = (pre.length : Int) + (1 + bs.length) := by omega
  conv_lhs => unfold Instructions.StringLoop
  rw [if_pos hlt, hidx]
  simp only [hlk, hsl, hrd, hfmt, hnext]
  simp only [rawLine, disasmLine, opName, opWidths, hd, String.append_assoc]

theorem StringLoop_prefix (instrs : List (Opcode × List Nat)) :
    ∀ (pre tail : Instructions) (fuel : Nat) (out : Text),
      (∀ p ∈ instrs, WellFormedInstr p) →
      Instructions.StringLoop (pre ++ (rawStream instrs ++ tail)) (instrs.length + fuel)
          pre.length out
        = Instructions.StringLoop (pre ++ (rawStream instrs ++ tail)) fuel
            (pre.length + (rawStream instrs).length)
            (out ++ concatLines (List.zipWith rawLine (lineOffsets instrs pre.length) instrs)) := by
  induction instrs with
  | nil =>
    intro pre tail fuel out _
    simp [rawStream, lineOffsets, concatLines]
  | cons p ps ih =>
    intro pre tail fuel out hwf
    obtain ⟨op, bs⟩ := p
    obtain ⟨d, hd, hbl⟩ := hwf (op, bs) (by simp)
    dsimp only at hd hbl
    have hstream : pre ++ (rawStream ((op, bs) :: ps) ++ tail)
        = pre ++ (op :: bs ++ (rawStream ps ++ tail)) := by
      simp [rawStream]
    have hstream2 : pre ++ (rawStream ((op, bs) :: ps) ++ tail)
        = (pre ++ op :: bs) ++ (rawStream ps ++ tail) := by
      simp [rawStream]
    have hfuel : ((op, bs) :: ps).length + fuel = (ps.length + fuel) + 1 := by
      simp only [List.length_cons]; omega
    have hpl : ((pre ++ op :: bs).length : Int) = pre.length + (1 + bs.length) := by
      simp only [List.length_append, List.length_cons, Nat.cast_add, Nat.cast_one]; omega
    rw [hfuel, hstream, StringLoop_step pre op bs (rawStream ps ++ tail) d hd hbl, ← hstream,
      hstream2, ← hpl]
    rw [ih (pre ++ op :: bs) tail fuel _ (fun q hq => hwf q (by simp [hq]))]
    have hl2 := rawStream_length_cons (op, bs) ps
    dsimp only at hl2
    have hpos : ((pre ++ op :: bs).length : Int) + (rawStream ps).length
        = pre.length + (rawStream ((op, bs) :: ps)).length := by
      rw [hpl, hl2]; omega
    rw [hpos]
    simp only [lineOffsets, List.zipWith_cons_cons, concatLines, String.append_assoc, hpl]

theorem ReadOperands_short (d : Definition) (ins : Instructions)
    (hs : d.OperandWidths = [] ∨ d.OperandWidths = [2] ∨ d.OperandWidths = [1]
        ∨ d.OperandWidths = [2, 1])
    (hlen : (ins.length : Int) < d.OperandWidths.sum) :
    ReadOperands d ins = .error .indexOutOfRange := by
  obtain ⟨name, ws⟩ := d
  dsimp only at hs hlen ⊢
  rcases hs with hs | hs | hs | hs <;> subst hs
  · simp at hlen; omega
  · match ins, hlen with
    | [], _ => rfl
    | [_], _ => rfl
    | _ :: _ :: t, hlen => simp at hlen; omega
  · match ins, hlen with
    | [], _ => rfl
    | _ :: t, hlen => simp at hlen; omega
  · match ins, hlen with
    | [], _ => rfl
    | [_], _ => rfl
    | [_, _], _ => rfl
    | _ :: _ :: _ :: t, hlen => simp at hlen; omega

/-- C15. `ReadOperands` is in bounds exactly when enough bytes are supplied:
for every definition of the table and every byte sequence `ins`,
`ReadOperands` returns if and only if `len(ins)` is at least the sum of the
declared widths, and otherwise fails with an index out of range. Consequently
`Instructions.String` fails with an index out of range on every stream made of
complete instructions followed by an opcode of the table with too few operand
bytes; the one-byte stream `[0]` is such a stream. -/
theorem ReadOperands_in_bounds_iff (op : Nat) (d : Definition) (ins : Instructions)
    (hd : definitions op = some d) :
    ((∃ r, ReadOperands d ins = .ok r) ↔ d.OperandWidths.sum ≤ ins.length) ∧
    (¬ d.OperandWidths.sum ≤ ins.length → ReadOperands d ins = .error .indexOutOfRange) ∧
    (∀ instrs : List (Opcode × List Nat), (∀ p ∈ instrs, WellFormedInstr p) →
      ¬ d.OperandWidths.sum ≤ ins.length → ∀ fuel, instrs.length < fuel →
      Instructions.String (rawStream instrs ++ op :: ins) fuel
        = some (.error .indexOutOfRange)) ∧
    (∀ fuel, 0 < fuel → Instructions.String [0] fuel = some (.error .indexOutOfRange)) := by
  obtain ⟨-, -, hs⟩ := definitions_shape op d hd
  have hw : ∀ w ∈ d.OperandWidths, 0 ≤ w ∧ w ≤ 2 := by
    intro w hw
    rcases shape_widths _ hs w hw with h | h <;> omega
  have hshort : ¬ d.OperandWidths.sum ≤ ins.length →
      ReadOperands d ins = .error .indexOutOfRange := by
    intro h
    exact ReadOperands_short d ins hs (by omega)
  have hlast : ∀ (pre : Instructions) (f : Nat) (out : Text),
      ¬ d.OperandWidths.sum ≤ ins.length →
      Instructions.StringLoop (pre ++ op :: ins) (f + 1) pre.length out
        = some (.error .indexOutOfRange) := by
    intro pre f out h
    have hlt : (pre.length : Int) < ((pre ++ op :: ins).length : Int) := by
      simp only [List.length_append, List.length_cons, Nat.cast_add, Nat.cast_one]; omega
    unfold Instructions.StringLoop
    rw [if_pos hlt, index_append]
    simp only [Lookup, hd, sliceFrom_append, hshort h]
  refine ⟨⟨?_, ?_⟩, hshort, ?_, ?_⟩
  · rintro ⟨r, hr⟩
    by_contra h
    rw [hshort h] at hr
    cases hr
  · intro h
    exact ⟨_, ReadOperands_ok d ins hw h⟩
  · intro instrs hwf h fuel hf
    obtain ⟨f, rfl⟩ : ∃ f, fuel = instrs.length + (f + 1) := ⟨fuel - instrs.length - 1, by omega⟩
    have hp := StringLoop_prefix instrs [] (op :: ins) (f + 1) "" hwf
    simp only [List.nil_append, List.length_nil, Nat.cast_zero, zero_add,
      String.empty_append] at hp
    unfold Instructions.String
    rw [hp]
    exact hlast (rawStream instrs) f _ h
  · intro fuel hf
    obtain ⟨f, rfl⟩ : ∃ f, fuel = f + 1 := ⟨fuel - 1, by omega⟩
    rfl

/-- Witness of C15 at `OpConstant` with one operand byte, after a complete `OpAdd`. -/
theorem ReadOperands_in_bounds_iff_witness :
    ReadOperands ⟨"OpConstant", [2]⟩ [7] = .error .indexOutOfRange ∧
    Instructions.String (rawStream [(OpAdd, [])] ++ OpConstant :: [7]) 2
      = some (.error .indexOutOfRange) ∧
    Instructions.String [0] 1 = some (.error .indexOutOfRange) :=
  ⟨(ReadOperands_in_bounds_iff OpConstant ⟨"OpConstant", [2]⟩ [7] (by decide)).2.1 (by decide),
    (ReadOperands_in_bounds_iff OpConstant ⟨"OpConstant", [2]⟩ [7] (by decide)).2.2.1
      [(OpAdd, [])]
      (by
        intro p hp
        simp only [List.mem_singleton] at hp
        subst hp
        exact ⟨_, rfl, by decide⟩)
      (by decide) 2 (by decide),
    (ReadOperands_in_bounds_iff OpConstant ⟨"OpConstant", [2]⟩ [7] (by decide)).2.2.2 1
      (by decide)⟩

theorem ReadOperandsLoop_length (ins : Instructions) (ws : List Int) :
    ∀ (offset : Int) (acc vals : List Int) (n : Int),
      ReadOperandsLoop ins ws offset acc = .ok (vals, n) →
      vals.length = acc.length + ws.length := by
  induction ws with
  | nil =>
    intro offset acc vals n h
    simp only [ReadOperandsLoop] at h
    injection h with h
    injection h with h1 _
    subst h1; simp
  | cons w ws ih =>
    intro offset acc vals n h
    unfold ReadOperandsLoop at h
    dsimp only at h
    split at h
    · cases h
    · have := ih _ _ _ _ h
      simp only [List.length_append, List.length_cons, List.length_nil] at this ⊢
      omega

/-- C16. The defensive error branches of `fmtInstruction` are unreachable from
disassembly. At every iteration of the loop of `Instructions.String` that
reaches the call (the opcode `ins[i]` is found by `Lookup`, and `ReadOperands`
on `ins[i+1:]` returns), the operand list passed to `fmtInstruction` has as
many entries as the definition declares widths and that number is 0, 1 or 2;
so the call returns the name followed by the operands, and the iteration
appends the line built from it. -/
theorem fmtInstruction_error_branches_unreachable (ins : Instructions) (i : Int) (b : Nat)
    (d : Definition) (rest : Instructions) (operands : List Int) (read : Int)
    (hi : i < ins.length) (hb : index ins i = .ok b) (hl : Lookup b = .ok d)
    (hs : sliceFrom ins (i + 1) = .ok rest)
    (hr : ReadOperands d rest = .ok (operands, read)) :
    operands.length = d.OperandWidths.length ∧
    (d.OperandWidths.length = 0 ∨ d.OperandWidths.length = 1 ∨ d.OperandWidths.length = 2) ∧
    Instructions.fmtInstruction ins d operands = d.Name ++ operandsText operands ∧
    ∀ (fuel : Nat) (out : Text),
      Instructions.StringLoop ins (fuel + 1) i out
        = Instructions.StringLoop ins fuel (i + 1 + read)
            (out ++ fmt04d i ++ " " ++ (d.Name ++ operandsText operands) ++ "\n") := by
  have hd : definitions b = some d := by
    unfold Lookup at hl
    split at hl
    · cases hl
    · rename_i d2 hd2
      injection hl with hl
      subst hl; exact hd2
  obtain ⟨-, -, hsh⟩ := definitions_shape b d hd
  have hlen : operands.length = d.OperandWidths.length := by
    have := ReadOperandsLoop_length rest d.OperandWidths 0 [] operands read hr
    simpa using this
  have hfmt := fmtInstruction_eq ins d operands hsh hlen
  refine ⟨hlen, ?_, hfmt, ?_⟩
  · rcases hsh with h | h | h | h <;> rw [h] <;> simp
  · intro fuel out
    conv_lhs => unfold Instructions.StringLoop
    rw [if_pos hi, hb]
    simp only [hl, hs, hr, hfmt]

/-- Witness of C16 at the stream `OpAdd; OpClosure 65535 255`, second iteration. -/
theorem fmtInstruction_error_branches_unreachable_witness :
    [(65535 : Int), 255].length = (Definition.mk "OpClosure" [2, 1]).OperandWidths.length ∧
    ((Definition.mk "OpClosure" [2, 1]).OperandWidths.length = 0 ∨
      (Definition.mk "OpClosure" [2, 1]).OperandWidths.length = 1 ∨
      (Definition.mk "OpClosure" [2, 1]).OperandWidths.length = 2) ∧
    Instructions.fmtInstruction [1, 27, 255, 255, 255] ⟨"OpClosure", [2, 1]⟩ [65535, 255]
      = (Definition.mk "OpClosure" [2, 1]).Name ++ operandsText [65535, 255] ∧
    ∀ (fuel : Nat) (out : Text),
      Instructions.StringLoop [1, 27, 255, 255, 255] (fuel + 1) 1 out
        = Instructions.StringLoop [1, 27, 255, 255, 255] fuel (1 + 1 + 3)
            (out ++ fmt04d 1 ++ " "
              ++ ((Definition.mk "OpClosure" [2, 1]).Name ++ operandsText [65535, 255]) ++ "\n") :=
  fmtInstruction_error_branches_unreachable [1, 27, 255, 255, 255] 1 27
    ⟨"OpClosure", [2, 1]⟩ [255, 255, 255] [65535, 255] 3
    (by decide) (by decide) (by decide) (by decide) (by decide)

/-! ## Frame property of `ReadOperands` and operand-count mismatch in `Make`:
claims C17 and C18 -/

theorem ReadOperandsLoop_append (bs rest : Instructions) (ws : List Int) :
    ∀ (offset : Int) (acc : List Int), (∀ w ∈ ws, 0 ≤ w) → 0 ≤ offset →
      offset + ws.sum ≤ bs.length →
      ReadOperandsLoop (bs ++ rest) ws offset acc = ReadOperandsLoop bs ws offset acc := by
  induction ws with
  | nil => intro offset acc _ _ _; simp [ReadOperandsLoop]
  | cons w ws ih =>
    intro offset acc hw h0 hlen
    have hw0 := hw w (by simp)
    have hws : ∀ x ∈ ws, 0 ≤ x := fun x hx => hw x (by simp [hx])
    have hsum : 0 ≤ ws.sum := List.sum_nonneg hws
    simp only [List.sum_cons] at hlen
    have hrec : ∀ acc2, ReadOperandsLoop (bs ++ rest) ws (offset + w) acc2
        = ReadOperandsLoop bs ws (offset + w) acc2 :=
      fun acc2 => ih (offset + w) acc2 hws (by omega) (by omega)
    have hl1 : offset ≤ ((bs ++ rest).length : Int) := by
      simp only [List.length_append, Nat.cast_add]; omega
    have hs1 := sliceFrom_eq (bs ++ rest) offset h0 hl1
    have hs2 := sliceFrom_eq bs offset h0 (by omega)
    have hdrop : (bs ++ rest).drop offset.toNat = bs.drop offset.toNat ++ rest :=
      List.drop_append_of_le_length (by omega)
    have hdl : (bs.drop offset.toNat).length = bs.length - offset.toNat := by simp
    unfold ReadOperandsLoop
    by_cases h2 : w = 2
    · subst h2
      have r1 := ReadUint16_eq ((bs ++ rest).drop offset.toNat)
        (by rw [hdrop, List.length_append]; omega)
      have r2 := ReadUint16_eq (bs.drop offset.toNat) (by omega)
      have ht : ((bs ++ rest).drop offset.toNat).take 2 = (bs.drop offset.toNat).take 2 := by
        rw [hdrop, List.take_append_of_le_length (by omega)]
      simp only [if_true, hs1, hs2, r1, r2, ht, Except.map, hrec]
    · by_cases h1 : w = 1
      · subst h1
        have r1 := ReadUint8_eq ((bs ++ rest).drop offset.toNat)
          (by rw [hdrop, List.length_append]; omega)
        have r2 := ReadUint8_eq (bs.drop offset.toNat) (by omega)
        have ht : ((bs ++ rest).drop offset.toNat).take 1 = (bs.drop offset.toNat).take 1 := by
          rw [hdrop, List.take_append_of_le_length (by omega)]
        simp only [show ((1 : Int) = 2) = False from by simp, if_false, if_true, hs1, hs2, r1,
          r2, ht, Except.map, hrec]
      · simp only [h2, h1, if_false, hrec]

/-- C17 as stated fails, in both halves. For the definition with the operand
widths `2, -1` (their sum is 1) and the single byte `7`, `ReadOperands` on `[7]`
fails with an index out of range, while on `[7, 9]` it returns the operands
`1801, 0` and the count 1. And the operand bytes of `Make(OpConstant, 65536)`
followed by the bytes `1, 0, 1` decode to the operand `0`, not to `65536`. -/
theorem ReadOperands_negative_width_counterexample :
    ¬ (∀ (d : Definition) (bs rest : Instructions), (bs.length : Int) = d.OperandWidths.sum →
        ReadOperands d (bs ++ rest) = ReadOperands d bs) ∧
    ∃ b tail, Make OpConstant [65536] = .ok b ∧ sliceFrom b 1 = .ok tail ∧
      ReadOperands ⟨"OpConstant", [2]⟩ (tail ++ [1, 0, 1]) = .ok ([0], 2) ∧
      ReadOperands ⟨"OpConstant", [2]⟩ (tail ++ [1, 0, 1]) ≠ .ok ([65536], 2) := by
  refine ⟨?_, [0, 0, 0], [0, 0], by decide, by decide, by decide, by decide⟩
  intro h
  have := h ⟨"Op", [2, -1]⟩ [7] [9] (by decide)
  revert this
  decide

/-- C17, amended. For every definition whose operand widths are all
non-negative (every definition of the table is one), every byte sequence `bs`
of length exactly the sum of the widths and every byte sequence `rest`,
`ReadOperands` on `bs ++ rest` returns what it returns on `bs`; in particular,
for an opcode of the table and an operand vector of the right length, decoding
the operand bytes of `Make`, followed by arbitrary further bytes, returns the
sum of the widths and the operands reduced modulo the size of their slots,
which are the operands themselves whenever each of them is in range for its
slot. -/
theorem ReadOperands_ignores_rest (d : Definition) (bs rest : Instructions)
    (hw : ∀ w ∈ d.OperandWidths, 0 ≤ w) (hlen : (bs.length : Int) = d.OperandWidths.sum) :
    ReadOperands d (bs ++ rest) = ReadOperands d bs ∧
    ∀ (op : Nat) (operands : List Int) (b tail : Instructions), definitions op = some d →
      operands.length = d.OperandWidths.length →
      Make op operands = .ok b → sliceFrom b 1 = .ok tail →
      ReadOperands d (tail ++ rest)
        = .ok (reduceOperands d.OperandWidths operands, d.OperandWidths.sum) ∧
      (List.Forall₂ InRange operands d.OperandWidths →
        ReadOperands d (tail ++ rest) = .ok (operands, d.OperandWidths.sum)) := by
  constructor
  · exact ReadOperandsLoop_append bs rest d.OperandWidths 0 [] hw (le_refl 0) (by omega)
  · intro op operands b tail hd hl hb ht
    obtain ⟨-, -, hs⟩ := definitions_shape op d hd
    rw [Make_eq_encode op d operands hd hl] at hb
    injection hb with hb
    subst hb
    have ht2 : sliceFrom (op :: encodeOperands d.OperandWidths operands) 1
        = .ok (encodeOperands d.OperandWidths operands) := by simp [sliceFrom]
    rw [ht2] at ht
    injection ht with ht
    subst ht
    have hel := encodeOperands_length d.OperandWidths operands hs hl
    have hw2 : ∀ w ∈ d.OperandWidths, 0 ≤ w ∧ w ≤ 2 := by
      intro w hw
      rcases shape_widths _ hs w hw with h | h <;> omega
    have hread := ReadOperands_ok d (encodeOperands d.OperandWidths operands ++ rest) hw2
      (by simp only [List.length_append, Nat.cast_add]; omega)
    constructor
    · rw [hread, decodeFrom_encode_mod d.OperandWidths operands rest hs hl]
    · intro hr
      rw [hread, decodeFrom_encode d.OperandWidths operands rest hs hr]

/-- Witness of the amended C17 at `OpClosure`: the operand bytes `255, 254, 7`
followed by the bytes `1, 0, 0, 2`, and the operand bytes of
`Make(OpClosure, 65536, 263)` followed by the same bytes. -/
theorem ReadOperands_ignores_rest_witness :
    ReadOperands ⟨"OpClosure", [2, 1]⟩ ([255, 254, 7] ++ [1, 0, 0, 2])
      = ReadOperands ⟨"OpClosure", [2, 1]⟩ [255, 254, 7] ∧
    ReadOperands ⟨"OpClosure", [2, 1]⟩ ([255, 254, 7] ++ [1, 0, 0, 2])
      = .ok ([65534, 7], (Definition.mk "OpClosure" [2, 1]).OperandWidths.sum) ∧
    ReadOperands ⟨"OpClosure", [2, 1]⟩ ([0, 0, 7] ++ [1, 0, 0, 2])
      = .ok (reduceOperands (Definition.mk "OpClosure" [2, 1]).OperandWidths [65536, 263],
          (Definition.mk "OpClosure" [2, 1]).OperandWidths.sum) ∧
    reduceOperands (Definition.mk "OpClosure" [2, 1]).OperandWidths [65536, 263] = [0, 7] :=
  ⟨(ReadOperands_ignores_rest ⟨"OpClosure", [2, 1]⟩ [255, 254, 7] [1, 0, 0, 2]
      (by decide) (by decide)).1,
    ((ReadOperands_ignores_rest ⟨"OpClosure", [2, 1]⟩ [255, 254, 7] [1, 0, 0, 2]
      (by decide) (by decide)).2 OpClosure [65534, 7] [27, 255, 254, 7] [255, 254, 7]
      (by decide) (by decide) (by decide) (by decide)).2
      (List.Forall₂.cons (by decide) (List.Forall₂.cons (by decide) List.Forall₂.nil)),
    ((ReadOperands_ignores_rest ⟨"OpClosure", [2, 1]⟩ [255, 254, 7] [1, 0, 0, 2]
      (by decide) (by decide)).2 OpClosure [65536, 263] [27, 0, 0, 7] [0, 0, 7]
      (by decide) (by decide) (by decide) (by decide)).1,
    by decide⟩

/-- C18. Operand-count mismatch in `Make` is not rejected: for every opcode of
the table, `Make` with at most as many operands as the arity returns the
opcode, the bytes of the operands given, and zero bytes for every missing
operand, `1 + Σ widths` bytes in all; `Make` with more operands than the arity
fails with an index out of range (as `Make(OpAdd, 1)` does); so `Make` returns
if and only if the operand count is at most the arity. -/
theorem Make_operand_count_mismatch (op : Nat) (d : Definition) (operands : List Int)
    (hd : definitions op = some d) :
    (operands.length ≤ d.OperandWidths.length →
      Make op operands
        = .ok (op :: (encodeOperands (d.OperandWidths.take operands.length) operands
            ++ List.replicate ((d.OperandWidths.drop operands.length).sum).toNat 0)) ∧
      ((1 + (encodeOperands (d.OperandWidths.take operands.length) operands).length
          + ((d.OperandWidths.drop operands.length).sum).toNat : Nat) : Int)
        = 1 + d.OperandWidths.sum) ∧
    (d.OperandWidths.length < operands.length →
      Make op operands = .error .indexOutOfRange) ∧
    ((∃ b, Make op operands = .ok b) ↔ operands.length ≤ d.OperandWidths.length) ∧
    Make OpAdd [1] = .error .indexOutOfRange := by
  obtain ⟨hop, -, hs⟩ := definitions_shape op d hd
  have hmod : op % 256 = op := by omega
  have hle : operands.length ≤ d.OperandWidths.length →
      Make op operands
        = .ok (op :: (encodeOperands (d.OperandWidths.take operands.length) operands
            ++ List.replicate ((d.OperandWidths.drop operands.length).sum).toNat 0)) ∧
      ((1 + (encodeOperands (d.OperandWidths.take operands.length) operands).length
          + ((d.OperandWidths.drop operands.length).sum).toNat : Nat) : Int)
        = 1 + d.OperandWidths.sum := by
    intro hlen
    unfold Make
    rw [hd]
    obtain ⟨name, ws⟩ := d
    dsimp only at hs hlen ⊢
    rcases hs with hs | hs | hs | hs <;> subst hs
    · match operands, hlen with
      | [], _ => simp [putByte, MakeLoop, encodeOperands, hmod]
    · match operands, hlen with
      | [], _ => simp [putByte, MakeLoop, encodeOperands, hmod]
      | [o], _ => simp [putByte, MakeLoop, encodeOperands, hmod, PutUint16, uint16_div_lt]
    · match operands, hlen with
      | [], _ => simp [putByte, MakeLoop, encodeOperands, hmod]
      | [o], _ => simp [putByte, MakeLoop, encodeOperands, hmod]
    · match operands, hlen with
      | [], _ => simp [putByte, MakeLoop, encodeOperands, hmod]
      | [o], _ => simp [putByte, MakeLoop, encodeOperands, hmod, PutUint16, uint16_div_lt]
      | [o, o2], _ =>
        simp [putByte, MakeLoop, encodeOperands, hmod, PutUint16, uint16_div_lt]
  have hgt : d.OperandWidths.length < operands.length →
      Make op operands = .error .indexOutOfRange := by
    intro hlen
    unfold Make
    rw [hd]
    obtain ⟨name, ws⟩ := d
    dsimp only at hs hlen ⊢
    rcases hs with hs | hs | hs | hs <;> subst hs
    · match operands, hlen with
      | o :: os, _ => simp [putByte, MakeLoop, hmod]
    · match operands, hlen with
      | o :: o2 :: os, _ => simp [putByte, MakeLoop, hmod, PutUint16]
    · match operands, hlen with
      | o :: o2 :: os, _ => simp [putByte, MakeLoop, hmod]
    · match operands, hlen with
      | o :: o2 :: o3 :: os, _ => simp [putByte, MakeLoop, hmod, PutUint16]
  refine ⟨hle, hgt, ⟨?_, ?_⟩, by decide⟩
  · rintro ⟨b, hb⟩
    by_contra h
    rw [hgt (by omega)] at hb
    cases hb
  · intro h
    exact ⟨_, (hle h).1⟩

/-- Witness of C18 at `Make(OpClosure, 258)` (one operand missing) and
`Make(OpConstant, 1, 2)` (one operand too many). -/
theorem Make_operand_count_mismatch_witness :
    Make OpClosure [258] = .ok [27, 1, 2, 0] ∧
    Make OpConstant [1, 2] = .error .indexOutOfRange ∧
    (Make OpClosure [258]
        = .ok (OpClosure :: (encodeOperands
            ((Definition.mk "OpClosure" [2, 1]).OperandWidths.take [(258 : Int)].length) [258]
            ++ List.replicate
              (((Definition.mk "OpClosure" [2, 1]).OperandWidths.drop
                [(258 : Int)].length).sum).toNat 0)) ∧
      ((1 + (encodeOperands
            ((Definition.mk "OpClosure" [2, 1]).OperandWidths.take [(258 : Int)].length)
            [258]).length
          + (((Definition.mk "OpClosure" [2, 1]).OperandWidths.drop
              [(258 : Int)].length).sum).toNat : Nat) : Int)
        = 1 + (Definition.mk "OpClosure" [2, 1]).OperandWidths.sum) :=
  ⟨by decide,
    (Make_operand_count_mismatch OpConstant ⟨"OpConstant", [2]⟩ [1, 2] (by decide)).2.1
      (by decide),
    (Make_operand_count_mismatch OpClosure ⟨"OpClosure", [2, 1]⟩ [258] (by decide)).1
      (by decide)⟩

/-! ## Injectivity of disassembly: claim C19 -/

theorem toDigitsCore_acc (fuel : Nat) :
    ∀ (n : Nat) (acc : List Char),
      Nat.toDigitsCore 10 fuel n acc = Nat.toDigitsCore 10 fuel n [] ++ acc := by
  induction fuel with
  | zero => intro n acc; simp [Nat.toDigitsCore]
  | succ f ih =>
    intro n acc
    simp only [Nat.toDigitsCore]
    by_cases h : n / 10 = 0
    · simp [h]
    · simp only [h, if_false]
      rw [ih (n / 10) (Nat.digitChar (n % 10) :: acc), ih (n / 10) [Nat.digitChar (n % 10)]]
      simp

theorem toDigitsCore_fuel (fuel : Nat) :
    ∀ (n fuel2 : Nat) (acc : List Char), n < fuel → n < fuel2 →
      Nat.toDigitsCore 10 fuel n acc = Nat.toDigitsCore 10 fuel2 n acc := by
  induction fuel with
  | zero => intro n fuel2 acc h; omega
  | succ f ih =>
    intro n fuel2 acc h h2
    obtain ⟨f2, rfl⟩ : ∃ f2, fuel2 = f2 + 1 := ⟨fuel2 - 1, by omega⟩
    simp only [Nat.toDigitsCore]
    by_cases hz : n / 10 = 0
    · simp [hz]
    · simp only [hz, if_false]
      exact ih (n / 10) f2 _ (by omega) (by omega)

theorem toDigits_lt_ten (n : Nat) (h : n < 10) : Nat.toDigits 10 n = [Nat.digitChar n] := by
  have hz : n / 10 = 0 := by omega
  have hm : n % 10 = n := by omega
  simp [Nat.toDigits, Nat.toDigitsCore, hz, hm]

theorem toDigits_ge_ten (n : Nat) (h : 10 ≤ n) :
    Nat.toDigits 10 n = Nat.toDigits 10 (n / 10) ++ [Nat.digitChar (n % 10)] := by
  have hz : ¬ n / 10 = 0 := by omega
  have step : Nat.toDigitsCore 10 (n + 1) n []
      = Nat.toDigitsCore 10 n (n / 10) [Nat.digitChar (n % 10)] := by
    simp [Nat.toDigitsCore, hz]
  unfold Nat.toDigits
  rw [step, toDigitsCore_acc n (n / 10) [Nat.digitChar (n % 10)],
    toDigitsCore_fuel n (n / 10) (n / 10 + 1) [] (by omega) (by omega)]

theorem digitChar_inj (a b : Nat) (ha : a < 10) (hb : b < 10)
    (h : Nat.digitChar a = Nat.digitChar b) : a = b := by
  interval_cases a <;> interval_cases b <;> first | rfl | (exact absurd h (by decide))

theorem digitChar_not_delim (a : Nat) (ha : a < 10) :
    Nat.digitChar a ≠ ' ' ∧ Nat.digitChar a ≠ '\n' := by
  interval_cases a <;> decide

theorem toDigits_ne_nil (n : Nat) : Nat.toDigits 10 n ≠ [] := by
  by_cases h : n < 10
  · rw [toDigits_lt_ten n h]; simp
  · rw [toDigits_ge_ten n (by omega)]; simp

theorem toDigits_not_delim (n : Nat) :
    ∀ c ∈ Nat.toDigits 10 n, c ≠ ' ' ∧ c ≠ '\n' := by
  induction n using Nat.strong_induction_on with
  | _ n ih =>
    by_cases h : n < 10
    · rw [toDigits_lt_ten n h]
      intro c hc
      simp only [List.mem_singleton] at hc
      subst hc
      exact digitChar_not_delim n h
    · rw [toDigits_ge_ten n (by omega)]
      intro c hc
      rcases List.mem_append.1 hc with hc | hc
      · exact ih (n / 10) (by omega) c hc
      · simp only [List.mem_singleton] at hc
        subst hc
        exact digitChar_not_delim _ (by omega)

theorem toDigits_inj (n : Nat) : ∀ m, Nat.toDigits 10 n = Nat.toDigits 10 m → n = m := by
  induction n using Nat.strong_induction_on with
  | _ n ih =>
    intro m hnm
    by_cases h : n < 10
    · by_cases h2 : m < 10
      · rw [toDigits_lt_ten n h, toDigits_lt_ten m h2] at hnm
        exact digitChar_inj n m h h2 (by simpa using hnm)
      · rw [toDigits_lt_ten n h, toDigits_ge_ten m (by omega)] at hnm
        have hl := congrArg List.length hnm
        have hne := toDigits_ne_nil (m / 10)
        have : 0 < (Nat.toDigits 10 (m / 10)).length := List.length_pos.2 hne
        simp only [List.length_append, List.length_singleton] at hl
        omega
    · by_cases h2 : m < 10
      · rw [toDigits_ge_ten n (by omega), toDigits_lt_ten m h2] at hnm
        have hl := congrArg List.length hnm
        have hne := toDigits_ne_nil (n / 10)
        have : 0 < (Nat.toDigits 10 (n / 10)).length := List.length_pos.2 hne
        simp only [List.length_append, List.length_singleton] at hl
        omega
      · rw [toDigits_ge_ten n (by omega), toDigits_ge_ten m (by omega)] at hnm
        have hl := congrArg List.length hnm
        simp only [List.length_append, List.length_singleton] at hl
        obtain ⟨h1, h3⟩ := List.append_inj hnm (by omega)
        have e1 := ih (n / 10) (by omega) (m / 10) h1
        have e2 := digitChar_inj (n % 10) (m % 10) (by omega) (by omega) (by simpa using h3)
        omega

theorem fmtD_natCast_data (v : Nat) : (fmtD (v : Int)).data = Nat.toDigits 10 v := rfl

theorem split_at_delim (u : List Char) :
    ∀ (v x y : List Char) (c c2 : Char),
      (∀ ch ∈ u, ch ≠ ' ' ∧ ch ≠ '\n') → (∀ ch ∈ v, ch ≠ ' ' ∧ ch ≠ '\n') →
      (c = ' ' ∨ c = '\n') → (c2 = ' ' ∨ c2 = '\n') →
      u ++ c :: x = v ++ c2 :: y → u = v ∧ c = c2 ∧ x = y := by
  induction u with
  | nil =>
    intro v x y c c2 _ hv hc _ h
    cases v with
    | nil =>
      simp only [List.nil_append, List.cons.injEq] at h
      exact ⟨rfl, h.1, h.2⟩
    | cons a v =>
      simp only [List.nil_append, List.cons_append, List.cons.injEq] at h
      have := hv a (by simp)
      rcases hc with hc | hc <;> (rw [hc] at h; exact absurd h.1.symm (by tauto))
  | cons a u ih =>
    intro v x y c c2 hu hv hc hc2 h
    cases v with
    | nil =>
      simp only [List.nil_append, List.cons_append, List.cons.injEq] at h
      have := hu a (by simp)
      rcases hc2 with hc2 | hc2 <;> (rw [hc2] at h; exact absurd h.1 (by tauto))
    | cons b v =>
      simp only [List.cons_append, List.cons.injEq] at h
      obtain ⟨h1, h2, h3⟩ := ih v x y c c2 (fun ch hch => hu ch (by simp [hch]))
        (fun ch hch => hv ch (by simp [hch])) hc hc2 h.2
      exact ⟨by rw [h.1, h1], h2, h3⟩

set_option maxRecDepth 100000 in
theorem definitionsTable_names :
    (definitionsTable.map (fun p => p.2.Name)).Nodup ∧
    ∀ p ∈ definitionsTable, p.2.Name ≠ "" ∧ ∀ c ∈ p.2.Name.data, c ≠ ' ' ∧ c ≠ '\n' := by
  constructor
  · decide
  · decide

theorem name_eq_imp_eq (op op2 : Nat) (d d2 : Definition)
    (h1 : definitions op = some d) (h2 : definitions op2 = some d2)
    (hn : d.Name = d2.Name) : op = op2 ∧ d = d2 := by
  have m1 := (definitions_shape op d h1).2.1
  have m2 := (definitions_shape op2 d2 h2).2.1
  have hnd := definitionsTable_names.1
  have hinj := List.inj_on_of_nodup_map hnd m1 m2 hn
  exact ⟨congrArg Prod.fst hinj, congrArg Prod.snd hinj⟩

theorem operandsText_cons_data (o : Int) (os : List Int) :
    (operandsText (o :: os)).data = ' ' :: ((fmtD o).data ++ (operandsText os).data) := by
  simp [operandsText, String.data_append]

theorem listing_cons_data (op : Nat) (bs : List Nat) (ps : List (Opcode × List Nat))
    (offset : Int) (d : Definition) (hd : definitions op = some d) :
    (concatLines (List.zipWith rawLine (lineOffsets ((op, bs) :: ps) offset)
        ((op, bs) :: ps))).data
      = (fmt04d offset).data ++ ' ' :: (d.Name.data
          ++ ((operandsText (decodeFrom bs d.OperandWidths 0)).data
            ++ '\n' :: (concatLines (List.zipWith rawLine
                (lineOffsets ps (offset + (1 + bs.length))) ps)).data)) := by
  simp [lineOffsets, concatLines, rawLine, disasmLine, opName, opWidths, hd,
    String.data_append]

theorem operandsText_tail_delim (vals : List Int) (r : List Char) :
    ∃ c x, (operandsText vals).data ++ '\n' :: r = c :: x ∧ (c = ' ' ∨ c = '\n') := by
  cases vals with
  | nil => exact ⟨'\n', r, by simp [operandsText], Or.inr rfl⟩
  | cons o os =>
    rw [operandsText_cons_data]
    exact ⟨' ', (fmtD o).data ++ ((operandsText os).data ++ '\n' :: r), by simp, Or.inl rfl⟩

theorem fmtD_nonneg_data (o : Int) (h : 0 ≤ o) : (fmtD o).data = Nat.toDigits 10 o.toNat := by
  obtain ⟨v, rfl⟩ : ∃ v : Nat, o = (v : Int) := ⟨o.toNat, by omega⟩
  rw [fmtD_natCast_data]
  simp

theorem operandsText_inj (v1 : List Int) :
    ∀ (v2 : List Int) (r1 r2 : List Char), v1.length = v2.length →
      (∀ o ∈ v1, 0 ≤ o) → (∀ o ∈ v2, 0 ≤ o) →
      (operandsText v1).data ++ '\n' :: r1 = (operandsText v2).data ++ '\n' :: r2 →
      v1 = v2 ∧ r1 = r2 := by
  induction v1 with
  | nil =>
    intro v2 r1 r2 hl _ _ h
    cases v2 with
    | nil =>
      simp only [operandsText] at h
      simp only [show ("" : Text).data = [] from rfl, List.nil_append, List.cons.injEq] at h
      exact ⟨rfl, h.2⟩
    | cons o os => simp at hl
  | cons o os ih =>
    intro v2 r1 r2 hl h1 h2 h
    cases v2 with
    | nil => simp at hl
    | cons o2 os2 =>
      rw [operandsText_cons_data, operandsText_cons_data] at h
      simp only [List.cons_append, List.cons.injEq, true_and, List.append_assoc] at h
      have ho := h1 o (by simp)
      have ho2 := h2 o2 (by simp)
      rw [fmtD_nonneg_data o ho, fmtD_nonneg_data o2 ho2] at h
      obtain ⟨c, x, hc, hcd⟩ := operandsText_tail_delim os r1
      obtain ⟨c2, x2, hc2, hcd2⟩ := operandsText_tail_delim os2 r2
      rw [hc, hc2] at h
      obtain ⟨e1, e2, e3⟩ := split_at_delim _ _ _ _ _ _ (toDigits_not_delim _)
        (toDigits_not_delim _) hcd hcd2 h
      have hv := toDigits_inj _ _ e1
      have hoo : o = o2 := by omega
      have htail : (operandsText os).data ++ '\n' :: r1
          = (operandsText os2).data ++ '\n' :: r2 := by
        rw [hc, hc2, e2, e3]
      obtain ⟨i1, i2⟩ := ih os2 r1 r2 (by simpa using hl)
        (fun q hq => h1 q (by simp [hq])) (fun q hq => h2 q (by simp [hq])) htail
      exact ⟨by rw [hoo, i1], i2⟩

theorem decodeFrom_nonneg (ins : Instructions) (ws : List Int) :
    ∀ (offset : Int), ∀ o ∈ decodeFrom ins ws offset, 0 ≤ o := by
  induction ws with
  | nil => intro offset o ho; simp [decodeFrom] at ho
  | cons w ws ih =>
    intro offset o ho
    simp only [decodeFrom, List.mem_cons] at ho
    rcases ho with h | h
    · rw [h]; positivity
    · exact ih _ o h

theorem decodeFrom_inj (ws : List Int) (bs bs2 : Instructions)
    (hs : ws = [] ∨ ws = [2] ∨ ws = [1] ∨ ws = [2, 1])
    (hl : (bs.length : Int) = ws.sum) (hl2 : (bs2.length : Int) = ws.sum)
    (hb : ∀ x ∈ bs, x < 256) (hb2 : ∀ x ∈ bs2, x < 256)
    (h : decodeFrom bs ws 0 = decodeFrom bs2 ws 0) : bs = bs2 := by
  rcases hs with hs | hs | hs | hs <;> subst hs
  · match bs, bs2, hl, hl2 with
    | [], [], _, _ => rfl
    | [], _ :: _, _, hl2 => simp at hl2; omega
    | _ :: _, _, hl, _ => simp at hl; omega
  · match bs, bs2, hl, hl2, hb, hb2, h with
    | [a0, a1], [c0, c1], _, _, hb, hb2, h =>
      have := hb a0 (by simp)
      have := hb a1 (by simp)
      have := hb2 c0 (by simp)
      have := hb2 c1 (by simp)
      simp [decodeFrom, bigEndian] at h
      have h0 : a0 = c0 := by omega
      have h1 : a1 = c1 := by omega
      rw [h0, h1]
    | [], _, hl, _, _, _, _ => simp at hl
    | [_], _, hl, _, _, _, _ => simp at hl
    | _ :: _ :: _ :: _, _, hl, _, _, _, _ => simp at hl; omega
    | _, [], _, hl2, _, _, _ => simp at hl2
    | _, [_], _, hl2, _, _, _ => simp at hl2
    | _, _ :: _ :: _ :: _, _, hl2, _, _, _ => simp at hl2; omega
  · match bs, bs2, hl, hl2, hb, hb2, h with
    | [a0], [c0], _, _, hb, hb2, h =>
      simp [decodeFrom, bigEndian] at h
      rw [h]
    | [], _, hl, _, _, _, _ => simp at hl
    | _ :: _ :: _, _, hl, _, _, _, _ => simp at hl; omega
    | _, [], _, hl2, _, _, _ => simp at hl2
    | _, _ :: _ :: _, _, hl2, _, _, _ => simp at hl2; omega
  · match bs, bs2, hl, hl2, hb, hb2, h with
    | [a0, a1, a2], [c0, c1, c2], _, _, hb, hb2, h =>
      have := hb a0 (by simp)
      have := hb a1 (by simp)
      have := hb2 c0 (by simp)
      have := hb2 c1 (by simp)
      have := hb a2 (by simp)
      have := hb2 c2 (by simp)
      have e : ∀ x0 x1 x2 : Nat, decodeFrom [x0, x1, x2] [2, 1] 0
          = [(((0 * 256 + x0) * 256 + x1 : Nat) : Int), ((0 * 256 + x2 : Nat) : Int)] :=
        fun _ _ _ => rfl
      rw [e, e] at h
      simp only [List.cons.injEq, and_true] at h
      obtain ⟨h01, h2⟩ := h
      have h0 : a0 = c0 := by omega
      have h1 : a1 = c1 := by omega
      have h2 : a2 = c2 := by omega
      rw [h0, h1, h2]
    | [], _, hl, _, _, _, _ => simp at hl
    | [_], _, hl, _, _, _, _ => simp at hl
    | [_, _], _, hl, _, _, _, _ => simp at hl
    | _ :: _ :: _ :: _ :: _, _, hl, _, _, _, _ => simp at hl; omega
    | _, [], _, hl2, _, _, _ => simp at hl2
    | _, [_], _, hl2, _, _, _ => simp at hl2
    | _, [_, _], _, hl2, _, _, _ => simp at hl2
    | _, _ :: _ :: _ :: _ :: _, _, hl2, _, _, _ => simp at hl2; omega

theorem listing_data_inj (a : List (Opcode × List Nat)) :
    ∀ (b : List (Opcode × List Nat)) (offset : Int),
      (∀ p ∈ a, WellFormedInstr p) → (∀ p ∈ b, WellFormedInstr p) →
      (∀ p ∈ a, ∀ x ∈ p.2, x < 256) → (∀ p ∈ b, ∀ x ∈ p.2, x < 256) →
      (concatLines (List.zipWith rawLine (lineOffsets a offset) a)).data
        = (concatLines (List.zipWith rawLine (lineOffsets b offset) b)).data →
      a = b := by
  induction a with
  | nil =>
    intro b offset _ hwb _ _ h
    cases b with
    | nil => rfl
    | cons q qs =>
      obtain ⟨op2, bs2⟩ := q
      obtain ⟨d2, hd2, -⟩ := hwb (op2, bs2) (by simp)
      rw [listing_cons_data op2 bs2 qs offset d2 hd2] at h
      simp [lineOffsets, concatLines] at h
  | cons p ps ih =>
    intro b offset hwa hwb hba hbb h
    cases b with
    | nil =>
      obtain ⟨op, bs⟩ := p
      obtain ⟨d, hd, -⟩ := hwa (op, bs) (by simp)
      rw [listing_cons_data op bs ps offset d hd] at h
      simp [lineOffsets, concatLines] at h
    | cons q qs =>
      obtain ⟨op, bs⟩ := p
      obtain ⟨op2, bs2⟩ := q
      obtain ⟨d, hd, hbl⟩ := hwa (op, bs) (by simp)
      obtain ⟨d2, hd2, hbl2⟩ := hwb (op2, bs2) (by simp)
      dsimp only at hd hd2 hbl hbl2
      rw [listing_cons_data op bs ps offset d hd,
        listing_cons_data op2 bs2 qs offset d2 hd2] at h
      have h1 := List.append_cancel_left h
      simp only [List.cons.injEq, true_and] at h1
      obtain ⟨c, x, hc, hcd⟩ := operandsText_tail_delim (decodeFrom bs d.OperandWidths 0)
        (concatLines (List.zipWith rawLine (lineOffsets ps (offset + (1 + bs.length))) ps)).data
      obtain ⟨c2, x2, hc2, hcd2⟩ := operandsText_tail_delim (decodeFrom bs2 d2.OperandWidths 0)
        (concatLines (List.zipWith rawLine
          (lineOffsets qs (offset + (1 + bs2.length))) qs)).data
      have hn1 := (definitionsTable_names.2 (op, d) (definitions_shape op d hd).2.1).2
      have hn2 := (definitionsTable_names.2 (op2, d2) (definitions_shape op2 d2 hd2).2.1).2
      dsimp only at hn1 hn2
      have h2 := h1
      rw [hc, hc2] at h2
      obtain ⟨e1, e2, e3⟩ := split_at_delim _ _ _ _ _ _ hn1 hn2 hcd hcd2 h2
      have hname : d.Name = d2.Name := String.ext e1
      obtain ⟨hop, hdd⟩ := name_eq_imp_eq op op2 d d2 hd hd2 hname
      subst hop
      subst hdd
      have htail := hc.trans ((by rw [e2, e3] : c :: x = c2 :: x2).trans hc2.symm)
      obtain ⟨hv, hr⟩ := operandsText_inj _ _ _ _
        (by rw [decodeFrom_length, decodeFrom_length])
        (decodeFrom_nonneg _ _ _) (decodeFrom_nonneg _ _ _) htail
      have hbs : bs = bs2 := decodeFrom_inj d.OperandWidths bs bs2
        (definitions_shape op d hd).2.2 hbl hbl2
        (hba (op, bs) (by simp)) (hbb (op, bs2) (by simp)) hv
      subst hbs
      have := ih qs (offset + (1 + bs.length)) (fun r hr => hwa r (by simp [hr]))
        (fun r hr => hwb r (by simp [hr])) (fun r hr => hba r (by simp [hr]))
        (fun r hr => hbb r (by simp [hr])) hr
      rw [this]

/-- C19. Disassembly is injective on well-formed streams. The names of the
table are pairwise distinct, non-empty and contain neither a space nor a
newline; and for any two streams that are each a concatenation of complete
encoded instructions (opcodes of the table, operand bytes below 256), if
`Instructions.String` returns the same text for both, the two streams are
equal. -/
theorem String_injective_on_well_formed (a b : List (Opcode × List Nat))
    (hwa : ∀ p ∈ a, WellFormedInstr p) (hwb : ∀ p ∈ b, WellFormedInstr p)
    (hba : ∀ p ∈ a, ∀ x ∈ p.2, x < 256) (hbb : ∀ p ∈ b, ∀ x ∈ p.2, x < 256)
    (fa fb : Nat) (hfa : a.length < fa) (hfb : b.length < fb)
    (h : Instructions.String (rawStream a) fa = Instructions.String (rawStream b) fb) :
    ((definitionsTable.map (fun p => p.2.Name)).Nodup ∧
      ∀ p ∈ definitionsTable, p.2.Name ≠ "" ∧ ∀ c ∈ p.2.Name.data, c ≠ ' ' ∧ c ≠ '\n') ∧
    (∃ text, Instructions.String (rawStream a) fa = some (.ok text)) ∧
    a = b ∧ rawStream a = rawStream b := by
  have ra := StringLoop_rawStream a [] fa "" hwa hfa
  have rb := StringLoop_rawStream b [] fb "" hwb hfb
  simp only [List.nil_append, List.length_nil, Nat.cast_zero, String.empty_append] at ra rb
  have ra2 : Instructions.String (rawStream a) fa = _ := ra
  have rb2 : Instructions.String (rawStream b) fb = _ := rb
  rw [ra2, rb2] at h
  injection h with h
  injection h with h
  have hab := listing_data_inj a b 0 hwa hwb hba hbb (congrArg String.data h)
  exact ⟨definitionsTable_names, ⟨_, ra2⟩, hab, by rw [hab]⟩

/-- Witness of C19 at the stream `OpConstant 258; OpAdd`, compared with itself
under two different amounts of loop iterations. -/
theorem String_injective_on_well_formed_witness :
    ((definitionsTable.map (fun p => p.2.Name)).Nodup ∧
      ∀ p ∈ definitionsTable, p.2.Name ≠ "" ∧ ∀ c ∈ p.2.Name.data, c ≠ ' ' ∧ c ≠ '\n') ∧
    (∃ text, Instructions.String (rawStream [(OpConstant, [1, 2]), (OpAdd, [])]) 3
      = some (.ok text)) ∧
    [(OpConstant, [1, 2]), (OpAdd, [])] = [(OpConstant, [1, 2]), (OpAdd, [])] ∧
    rawStream [(OpConstant, [1, 2]), (OpAdd, [])]
      = rawStream [(OpConstant, [1, 2]), (OpAdd, [])] :=
  String_injective_on_well_formed [(OpConstant, [1, 2]), (OpAdd, [])]
    [(OpConstant, [1, 2]), (OpAdd, [])]
    (by
      intro p hp
      simp only [List.mem_cons, List.mem_singleton, List.not_mem_nil, or_false] at hp
      rcases hp with h | h <;> subst h
      · exact ⟨_, rfl, by decide⟩
      · exact ⟨_, rfl, by decide⟩)
    (by
      intro p hp
      simp only [List.mem_cons, List.mem_singleton, List.not_mem_nil, or_false] at hp
      rcases hp with h | h <;> subst h
      · exact ⟨_, rfl, by decide⟩
      · exact ⟨_, rfl, by decide⟩)
    (by decide) (by decide) 3 4 (by decide) (by decide) (by decide)

end Code

namespace Vm

/-! ## Call frames: claim C13 -/

/-- C13. For every closure `cl` and integer `basePointer`, `NewFrame` returns
a frame whose closure is `cl`, whose base pointer is `basePointer` and whose
instruction pointer is `-1`; and `Frame.Instructions` of that frame returns,
unchanged, the instruction sequence of the compiled function of `cl`. -/
theorem NewFrame_fields_and_Instructions {Value : Type} (cl : Object.Closure Value)
    (basePointer : Int) :
    (NewFrame (some cl) basePointer).cl = some cl ∧
    (NewFrame (some cl) basePointer).basePointer = basePointer ∧
    (NewFrame (some cl) basePointer).ip = -1 ∧
    (NewFrame (some cl) basePointer).Instructions = .ok cl.Fn.Instructions := by
  refine ⟨rfl, rfl, rfl, rfl⟩

end Vm
